import Mathlib

/-!
# Verification of the call-graph extractor and analyzers

Shallow embedding of the call-graph core of `callgraph-viz`:

* `src/generate_graph.rs` — scope discovery, the statement walker, the
  expression walker, and the edge materializer (`generate_graph`,
  `build_graph_from_stmt`, `build_graph`, `get_call_idents`);
* `src/visualize.rs` — the structural analyzers that run over the built
  graph (`graph_components`, the inline-candidate branch of
  `graph_highlights`, and the call to `petgraph::algo::kosaraju_scc`).

Python identifiers are `String`s, the graph is an association list from
scope name to the ordered sequence of referenced names (modelling
`HashMap<String, Vec<String>>`; key order is immaterial, per-key sequences
are ordered exactly as the `Vec`s are).
-/

abbrev Ident := String

/-- The expression grammar of `rustpython_ast` as consumed by
`get_call_idents`.  Every constructor carries exactly the fields the
traversal in `generate_graph.rs` reads; `call` additionally carries its
keyword-argument values (present in `ExprCall` but ignored by the code via
`ExprCall { func, args, .. }`), so that their being ignored is visible.
`constant` stands for every expression form the traversal's final
catch-all arm (`_ => {}`) handles other than the forms listed (literals,
bare names outside call position are the `name` constructor, etc.). -/
inductive Expr where
  | call (func : Expr) (args : List Expr) (keywords : List Expr)
  | attributeE (value : Expr) (attr : Ident)
  | name (id : Ident)
  | boolOp (values : List Expr)
  | listE (elts : List Expr)
  | setE (elts : List Expr)
  | joinedStr (values : List Expr)
  | tuple (elts : List Expr)
  | dict (keys : List (Option Expr)) (values : List Expr)
  | namedExpr (target : Expr) (value : Expr)
  | binOp (left : Expr) (right : Expr)
  | dictComp (key : Expr) (value : Expr)
  | subscript (value : Expr) (slice : Expr)
  | unaryOp (operand : Expr)
  | lambda (body : Expr)
  | awaitE (value : Expr)
  | yield (value : Option Expr)
  | yieldFrom (value : Expr)
  | listComp (elt : Expr)
  | setComp (elt : Expr)
  | generatorExp (elt : Expr)
  | starred (value : Expr)
  | ifExp (test : Expr) (body : Expr) (orelse : Expr)
  | compare (left : Expr) (comparators : List Expr)
  | formattedValue (value : Expr) (formatSpec : Option Expr)
  | sliceE (lower : Option Expr) (upper : Option Expr) (step : Option Expr)
  | constant

/-- A `with`-item: the managed expression and the optional bound target. -/
structure WithItem where
  context_expr : Expr
  optional_vars : Option Expr

/-- The statement grammar of `rustpython_ast` as consumed by
`generate_graph` and `build_graph_from_stmt`.  `other` stands for every
statement kind handled by the catch-all `_ => {}` arm in
`build_graph_from_stmt` (conditionals, class definitions, imports, raise,
match, pass, break, continue, global/nonlocal, ...). -/
inductive Stmt where
  | functionDef (name : Ident) (body : List Stmt)
  | asyncFunctionDef (name : Ident) (body : List Stmt)
  | expr (value : Expr)
  | ret (value : Option Expr)
  | assertS (test : Expr) (msg : Option Expr)
  | tryS (body : List Stmt) (orelse : List Stmt) (finalbody : List Stmt)
  | withS (items : List WithItem) (body : List Stmt)
  | forS (target : Expr) (iter : Expr) (body : List Stmt)
  | assign (targets : List Expr) (value : Expr)
  | annAssign (target : Expr) (value : Option Expr)
  | delete (targets : List Expr)
  | whileS (test : Expr) (body : List Stmt)
  | augAssign (target : Expr) (value : Expr)
  | other

mutual

/-- `get_call_idents` from `generate_graph.rs`: the expression walker.
The Rust function pushes names onto the mutable vector `current`; we pass
the vector as state and return the extended vector. -/
def get_call_idents : Expr → List Ident → List Ident
  | .call func args _keywords, current =>
    let current :=
      match func with
      | .attributeE _ attr => current ++ [attr]
      | .name id => current ++ [id]
      | _ => current
    get_call_idents_list args current
  | .boolOp values, current => get_call_idents_list values current
  | .listE elts, current => get_call_idents_list elts current
  | .setE elts, current => get_call_idents_list elts current
  | .joinedStr values, current => get_call_idents_list values current
  | .tuple elts, current => get_call_idents_list elts current
  | .dict keys values, current =>
    get_call_idents_keys keys (get_call_idents_list values current)
  | .namedExpr target value, current =>
    get_call_idents value (get_call_idents target current)
  | .binOp left right, current =>
    get_call_idents right (get_call_idents left current)
  | .dictComp key value, current =>
    get_call_idents value (get_call_idents key current)
  | .subscript value slice, current =>
    get_call_idents slice (get_call_idents value current)
  | .unaryOp operand, current => get_call_idents operand current
  | .lambda body, current => get_call_idents body current
  | .awaitE value, current => get_call_idents value current
  | .yield (some operand), current => get_call_idents operand current
  | .yieldFrom value, current => get_call_idents value current
  | .listComp elt, current => get_call_idents elt current
  | .setComp elt, current => get_call_idents elt current
  | .generatorExp elt, current => get_call_idents elt current
  | .attributeE value _, current => get_call_idents value current
  | .starred value, current => get_call_idents value current
  | .ifExp test body orelse, current =>
    get_call_idents orelse (get_call_idents body (get_call_idents test current))
  | .compare left comparators, current =>
    get_call_idents_list comparators (get_call_idents left current)
  | .formattedValue value formatSpec, current =>
    let current := get_call_idents value current
    match formatSpec with
    | some fs => get_call_idents fs current
    | none => current
  | .sliceE lower upper step, current =>
    -- the Rust code visits upper, then lower, then step
    let current :=
      match upper with
      | some u => get_call_idents u current
      | none => current
    let current :=
      match lower with
      | some l => get_call_idents l current
      | none => current
    match step with
    | some s => get_call_idents s current
    | none => current
  | _, current => current

/-- The `for arg in args { get_call_idents(arg, current) }` loops. -/
def get_call_idents_list : List Expr → List Ident → List Ident
  | [], current => current
  | e :: rest, current => get_call_idents_list rest (get_call_idents e current)

/-- The `for key in keys.into_iter().filter_map(|x| x)` loop of the
`Dict` arm: absent (unpacking) keys are skipped. -/
def get_call_idents_keys : List (Option Expr) → List Ident → List Ident
  | [], current => current
  | none :: rest, current => get_call_idents_keys rest current
  | some e :: rest, current => get_call_idents_keys rest (get_call_idents e current)

end

/-! ## The graph and its operations

`HashMap<String, Vec<String>>` is modelled by an association list with
unique keys.  `insertG` is `HashMap::insert` (replaces the value of an
existing key), `entryPush g k x` is `graph.entry(k).or_default().push(x)`,
and `entryOrDefault g k` is `graph.entry(k).or_default()`. -/

abbrev Graph := List (Ident × List Ident)

def lookupG : Graph → Ident → Option (List Ident)
  | [], _ => none
  | (k', v') :: rest, k => if k' = k then some v' else lookupG rest k

def containsKey (g : Graph) (k : Ident) : Bool :=
  (lookupG g k).isSome

def insertG : Graph → Ident → List Ident → Graph
  | [], k, v => [(k, v)]
  | (k', v') :: rest, k, v =>
    if k' = k then (k', v) :: rest else (k', v') :: insertG rest k v

def entryPush : Graph → Ident → Ident → Graph
  | [], k, x => [(k, [x])]
  | (k', v') :: rest, k, x =>
    if k' = k then (k', v' ++ [x]) :: rest else (k', v') :: entryPush rest k x

def entryOrDefault : Graph → Ident → Graph
  | [], k => [(k, [])]
  | (k', v') :: rest, k =>
    if k' = k then (k', v') :: rest else (k', v') :: entryOrDefault rest k

/-- One iteration of the `for ident in current` loop of `build_graph`:
`graph.entry(func_name).or_default().push(ident); graph.entry(ident).or_default();`. -/
def applyIdent (g : Graph) (func_name : Ident) (ident : Ident) : Graph :=
  entryOrDefault (entryPush g func_name ident) ident

/-- The `for ident in current` loop of `build_graph` over a whole list. -/
def applyIdents (g : Graph) (func_name : Ident) (idents : List Ident) : Graph :=
  idents.foldl (fun g ident => applyIdent g func_name ident) g

/-- `build_graph` from `generate_graph.rs`: run the expression walker on
`expr` with an empty vector, then materialize one edge per extracted name. -/
def build_graph (expr : Expr) (func_name : Ident) (g : Graph) : Graph :=
  applyIdents g func_name (get_call_idents expr [])

mutual

/-- `build_graph_from_stmt` from `generate_graph.rs`: the statement walker.
The final catch-all covers `functionDef`, `asyncFunctionDef` and `other`,
exactly as the Rust `_ => {}` arm does (nested definitions are not
visited). -/
def build_graph_from_stmt : Stmt → Ident → Graph → Graph
  | .expr value, func_name, g => build_graph value func_name g
  | .ret value, func_name, g =>
    match value with
    | some value => build_graph value func_name g
    | none => g
  | .assertS test msg, func_name, g =>
    let g := build_graph test func_name g
    match msg with
    | some msg => build_graph msg func_name g
    | none => g
  | .tryS body orelse finalbody, func_name, g =>
    let g := build_stmts body func_name g
    let g := build_stmts orelse func_name g
    build_stmts finalbody func_name g
  | .withS items body, func_name, g =>
    let g := items.foldl
      (fun g item =>
        let g := build_graph item.context_expr func_name g
        match item.optional_vars with
        | some item => build_graph item func_name g
        | none => g)
      g
    build_stmts body func_name g
  | .forS target iter body, func_name, g =>
    let g := build_graph target func_name g
    let g := build_graph iter func_name g
    build_stmts body func_name g
  | .assign targets value, func_name, g =>
    let g := targets.foldl (fun g target => build_graph target func_name g) g
    build_graph value func_name g
  | .annAssign target value, func_name, g =>
    let g := build_graph target func_name g
    match value with
    | some value => build_graph value func_name g
    | none => g
  | .delete targets, func_name, g =>
    targets.foldl (fun g target => build_graph target func_name g) g
  | .whileS test body, func_name, g =>
    let g := build_graph test func_name g
    build_stmts body func_name g
  | .augAssign target value, func_name, g =>
    let g := build_graph target func_name g
    build_graph value func_name g
  | _, _, g => g

/-- The `for stmt in body { build_graph_from_stmt(...) }` loops. -/
def build_stmts : List Stmt → Ident → Graph → Graph
  | [], _, g => g
  | s :: rest, func_name, g => build_stmts rest func_name (build_graph_from_stmt s func_name g)

end

/-- One iteration of the `for stmt in module.body` loop of
`generate_graph`: `current_name` is first set to `"..."`, a function-like
definition overwrites it with its own name and inserts an empty entry
before walking its body, any other statement is walked under `"..."`. -/
def generate_step (g : Graph) (stmt : Stmt) : Graph :=
  match stmt with
  | .functionDef name body | .asyncFunctionDef name body =>
    build_stmts body name (insertG g name [])
  | _ => build_graph_from_stmt stmt "..." g

/-- The body of `generate_graph` after the parse: fold the per-statement
step over the module's top-level statements, starting from the empty map. -/
def generateGraphModule (body : List Stmt) : Graph :=
  body.foldl generate_step []

/-- Modelled from the spec: the external parser `rustpython_parser::parse`
is not part of this repository.  Per the spec a `ParseError` carries a
human-readable message and, where available, a source location. -/
structure ParseError where
  message : String
  location : Option (Nat × Nat)

/-- `generate_graph` from `generate_graph.rs`, parameterized by the result
of the external parse (`rustpython_parser::parse(src, Mode::Module, path)?`):
the `?` operator propagates a parse error unchanged; on success the graph
is built from the module body.  (With `Mode::Module` the parser always
returns a `Mod::Module`, so the `panic!()` arm of the `let else` is dead.) -/
def generate_graph : Except ParseError (List Stmt) → Except ParseError Graph
  | .error e => .error e
  | .ok body => .ok (generateGraphModule body)

/-! ## The extracted ident sequences, concatenation style

Verification helpers: `exprIdents e` is the list of names the expression
walker appends for `e`, and the state-passing walker satisfies
`get_call_idents e cur = cur ++ exprIdents e`. -/

/-- The names the `Call` arm records for a callee: the attribute name for
an attribute access, the identifier for a bare name, nothing otherwise. -/
def calleeNames : Expr → List Ident
  | .attributeE _ attr => [attr]
  | .name id => [id]
  | _ => []

mutual

def exprIdents : Expr → List Ident
  | .call func args _keywords => calleeNames func ++ exprIdentsList args
  | .boolOp values => exprIdentsList values
  | .listE elts => exprIdentsList elts
  | .setE elts => exprIdentsList elts
  | .joinedStr values => exprIdentsList values
  | .tuple elts => exprIdentsList elts
  | .dict keys values => exprIdentsList values ++ exprIdentsKeys keys
  | .namedExpr target value => exprIdents target ++ exprIdents value
  | .binOp left right => exprIdents left ++ exprIdents right
  | .dictComp key value => exprIdents key ++ exprIdents value
  | .subscript value slice => exprIdents value ++ exprIdents slice
  | .unaryOp operand => exprIdents operand
  | .lambda body => exprIdents body
  | .awaitE value => exprIdents value
  | .yield (some operand) => exprIdents operand
  | .yieldFrom value => exprIdents value
  | .listComp elt => exprIdents elt
  | .setComp elt => exprIdents elt
  | .generatorExp elt => exprIdents elt
  | .attributeE value _ => exprIdents value
  | .starred value => exprIdents value
  | .ifExp test body orelse => exprIdents test ++ exprIdents body ++ exprIdents orelse
  | .compare left comparators => exprIdents left ++ exprIdentsList comparators
  | .formattedValue value formatSpec =>
    exprIdents value ++
      (match formatSpec with
       | some fs => exprIdents fs
       | none => [])
  | .sliceE lower upper step =>
    (match upper with
     | some u => exprIdents u
     | none => []) ++
    (match lower with
     | some l => exprIdents l
     | none => []) ++
    (match step with
     | some s => exprIdents s
     | none => [])
  | _ => []

def exprIdentsList : List Expr → List Ident
  | [] => []
  | e :: rest => exprIdents e ++ exprIdentsList rest

def exprIdentsKeys : List (Option Expr) → List Ident
  | [] => []
  | none :: rest => exprIdentsKeys rest
  | some e :: rest => exprIdents e ++ exprIdentsKeys rest

end

/-- The `Call` arm of `get_call_idents`, with the inner `match` on the
callee expressed through `calleeNames`. -/
theorem get_call_idents_call (func : Expr) (args : List Expr) (keywords : List Expr)
    (cur : List Ident) :
    get_call_idents (.call func args keywords) cur =
      get_call_idents_list args (cur ++ calleeNames func) := by
  cases func <;> simp [get_call_idents, calleeNames]

mutual

theorem get_call_idents_state (e : Expr) (cur : List Ident) :
    get_call_idents e cur = cur ++ exprIdents e := by
  cases e with
  | call func args keywords =>
    have h1 := get_call_idents_list_state args (cur ++ calleeNames func)
    simp only [get_call_idents_call, exprIdents, h1, List.append_assoc]
  | boolOp values =>
    have h := get_call_idents_list_state values cur
    simp only [get_call_idents, exprIdents, h]
  | listE elts =>
    have h := get_call_idents_list_state elts cur
    simp only [get_call_idents, exprIdents, h]
  | setE elts =>
    have h := get_call_idents_list_state elts cur
    simp only [get_call_idents, exprIdents, h]
  | joinedStr values =>
    have h := get_call_idents_list_state values cur
    simp only [get_call_idents, exprIdents, h]
  | tuple elts =>
    have h := get_call_idents_list_state elts cur
    simp only [get_call_idents, exprIdents, h]
  | dict keys values =>
    have h1 := get_call_idents_list_state values cur
    have h2 := get_call_idents_keys_state keys (get_call_idents_list values cur)
    simp only [get_call_idents, exprIdents]; rw [h2, h1]; simp [List.append_assoc]
  | namedExpr target value =>
    have h1 := get_call_idents_state target cur
    have h2 := get_call_idents_state value (get_call_idents target cur)
    simp only [get_call_idents, exprIdents]; rw [h2, h1]; simp [List.append_assoc]
  | binOp left right =>
    have h1 := get_call_idents_state left cur
    have h2 := get_call_idents_state right (get_call_idents left cur)
    simp only [get_call_idents, exprIdents]; rw [h2, h1]; simp [List.append_assoc]
  | dictComp key value =>
    have h1 := get_call_idents_state key cur
    have h2 := get_call_idents_state value (get_call_idents key cur)
    simp only [get_call_idents, exprIdents]; rw [h2, h1]; simp [List.append_assoc]
  | subscript value slice =>
    have h1 := get_call_idents_state value cur
    have h2 := get_call_idents_state slice (get_call_idents value cur)
    simp only [get_call_idents, exprIdents]; rw [h2, h1]; simp [List.append_assoc]
  | unaryOp operand =>
    have h := get_call_idents_state operand cur
    simp only [get_call_idents, exprIdents, h]
  | lambda body =>
    have h := get_call_idents_state body cur
    simp only [get_call_idents, exprIdents, h]
  | awaitE value =>
    have h := get_call_idents_state value cur
    simp only [get_call_idents, exprIdents, h]
  | yield value =>
    cases value with
    | some operand =>
      have h := get_call_idents_state operand cur
      simp only [get_call_idents, exprIdents, h]
    | none => simp [get_call_idents, exprIdents]
  | yieldFrom value =>
    have h := get_call_idents_state value cur
    simp only [get_call_idents, exprIdents, h]
  | listComp elt =>
    have h := get_call_idents_state elt cur
    simp only [get_call_idents, exprIdents, h]
  | setComp elt =>
    have h := get_call_idents_state elt cur
    simp only [get_call_idents, exprIdents, h]
  | generatorExp elt =>
    have h := get_call_idents_state elt cur
    simp only [get_call_idents, exprIdents, h]
  | attributeE value attr =>
    have h := get_call_idents_state value cur
    simp only [get_call_idents, exprIdents, h]
  | starred value =>
    have h := get_call_idents_state value cur
    simp only [get_call_idents, exprIdents, h]
  | ifExp test body orelse =>
    have h1 := get_call_idents_state test cur
    have h2 := get_call_idents_state body (get_call_idents test cur)
    have h3 := get_call_idents_state orelse (get_call_idents body (get_call_idents test cur))
    simp only [get_call_idents, exprIdents]; rw [h3, h2, h1]; simp [List.append_assoc]
  | compare left comparators =>
    have h1 := get_call_idents_state left cur
    have h2 := get_call_idents_list_state comparators (get_call_idents left cur)
    simp only [get_call_idents, exprIdents]; rw [h2, h1]; simp [List.append_assoc]
  | formattedValue value formatSpec =>
    have h1 := get_call_idents_state value cur
    cases formatSpec with
    | some fs =>
      have h2 := get_call_idents_state fs (get_call_idents value cur)
      simp only [get_call_idents, exprIdents]; rw [h2, h1]; simp [List.append_assoc]
    | none => simp only [get_call_idents, exprIdents, h1, List.append_nil]
  | sliceE lower upper step =>
    cases upper with
    | some u =>
      have hu := get_call_idents_state u cur
      cases lower with
      | some l =>
        have hl := get_call_idents_state l (get_call_idents u cur)
        cases step with
        | some s =>
          have hs := get_call_idents_state s (get_call_idents l (get_call_idents u cur))
          simp only [get_call_idents, exprIdents]; rw [hs, hl, hu]; simp [List.append_assoc]
        | none =>
          simp only [get_call_idents, exprIdents]; rw [hl, hu]; simp [List.append_assoc]
      | none =>
        cases step with
        | some s =>
          have hs := get_call_idents_state s (get_call_idents u cur)
          simp only [get_call_idents, exprIdents]; rw [hs, hu]; simp [List.append_assoc]
        | none =>
          simp only [get_call_idents, exprIdents, hu, List.append_assoc, List.nil_append,
            List.append_nil]
    | none =>
      cases lower with
      | some l =>
        have hl := get_call_idents_state l cur
        cases step with
        | some s =>
          have hs := get_call_idents_state s (get_call_idents l cur)
          simp only [get_call_idents, exprIdents]; rw [hs, hl]; simp [List.append_assoc]
        | none =>
          simp only [get_call_idents, exprIdents, hl, List.append_assoc, List.nil_append,
            List.append_nil]
      | none =>
        cases step with
        | some s =>
          have hs := get_call_idents_state s cur
          simp only [get_call_idents, exprIdents, hs, List.append_assoc, List.nil_append,
            List.append_nil]
        | none => simp [get_call_idents, exprIdents]
  | name id => simp [get_call_idents, exprIdents]
  | constant => simp [get_call_idents, exprIdents]

theorem get_call_idents_list_state (l : List Expr) (cur : List Ident) :
    get_call_idents_list l cur = cur ++ exprIdentsList l := by
  cases l with
  | nil => simp [get_call_idents_list, exprIdentsList]
  | cons e rest =>
    have h1 := get_call_idents_state e cur
    have h2 := get_call_idents_list_state rest (get_call_idents e cur)
    simp only [get_call_idents_list, exprIdentsList]; rw [h2, h1]; simp [List.append_assoc]

theorem get_call_idents_keys_state (l : List (Option Expr)) (cur : List Ident) :
    get_call_idents_keys l cur = cur ++ exprIdentsKeys l := by
  cases l with
  | nil => simp [get_call_idents_keys, exprIdentsKeys]
  | cons o rest =>
    cases o with
    | none =>
      have h := get_call_idents_keys_state rest cur
      simp only [get_call_idents_keys, exprIdentsKeys, h]
    | some e =>
      have h1 := get_call_idents_state e cur
      have h2 := get_call_idents_keys_state rest (get_call_idents e cur)
      simp only [get_call_idents_keys, exprIdentsKeys]; rw [h2, h1]; simp [List.append_assoc]

end

/-! ## Per-statement ident sequences and lookup characterizations -/

def optIdents : Option Expr → List Ident
  | some e => exprIdents e
  | none => []

/-- Idents extracted from the `with`-items, in the order the code visits
them: context expression, then the optional bound target, per item. -/
def withItemsIdents : List WithItem → List Ident
  | [] => []
  | item :: rest =>
    exprIdents item.context_expr ++ optIdents item.optional_vars ++ withItemsIdents rest

mutual

/-- The ordered sequence of names the statement walker extracts from one
statement (the concatenation, in visit order, of the expression walker's
outputs on the statement's contained expressions). -/
def stmtIdents : Stmt → List Ident
  | .expr value => exprIdents value
  | .ret value => optIdents value
  | .assertS test msg => exprIdents test ++ optIdents msg
  | .tryS body orelse finalbody =>
    stmtsIdents body ++ stmtsIdents orelse ++ stmtsIdents finalbody
  | .withS items body => withItemsIdents items ++ stmtsIdents body
  | .forS target iter body => exprIdents target ++ exprIdents iter ++ stmtsIdents body
  | .assign targets value => exprIdentsList targets ++ exprIdents value
  | .annAssign target value => exprIdents target ++ optIdents value
  | .delete targets => exprIdentsList targets
  | .whileS test body => exprIdents test ++ stmtsIdents body
  | .augAssign target value => exprIdents target ++ exprIdents value
  | _ => []

def stmtsIdents : List Stmt → List Ident
  | [] => []
  | s :: rest => stmtIdents s ++ stmtsIdents rest

end

theorem lookupG_insertG (g : Graph) (k : Ident) (v : List Ident) (q : Ident) :
    lookupG (insertG g k v) q = if k = q then some v else lookupG g q := by
  induction g with
  | nil => simp [insertG, lookupG]
  | cons p rest ih =>
    obtain ⟨k', v'⟩ := p
    simp only [insertG]
    by_cases h1 : k' = k
    · subst h1
      by_cases h2 : k' = q <;> simp [lookupG, h2]
    · simp only [if_neg h1, lookupG, ih]
      by_cases h2 : k' = q
      · subst h2
        have h3 : k ≠ k' := fun e => h1 e.symm
        simp [h3]
      · simp [h2]

theorem lookupG_entryPush (g : Graph) (k : Ident) (x : Ident) (q : Ident) :
    lookupG (entryPush g k x) q =
      if k = q then some ((lookupG g q).getD [] ++ [x]) else lookupG g q := by
  induction g with
  | nil => simp [entryPush, lookupG]
  | cons p rest ih =>
    obtain ⟨k', v'⟩ := p
    simp only [entryPush]
    by_cases h1 : k' = k
    · subst h1
      by_cases h2 : k' = q <;> simp [lookupG, h2]
    · simp only [if_neg h1, lookupG, ih]
      by_cases h2 : k' = q
      · subst h2
        have h3 : k ≠ k' := fun e => h1 e.symm
        simp [h3]
      · simp [h2]

theorem lookupG_entryOrDefault (g : Graph) (k : Ident) (q : Ident) :
    lookupG (entryOrDefault g k) q =
      if k = q then some ((lookupG g q).getD []) else lookupG g q := by
  induction g with
  | nil => simp [entryOrDefault, lookupG]
  | cons p rest ih =>
    obtain ⟨k', v'⟩ := p
    simp only [entryOrDefault]
    by_cases h1 : k' = k
    · subst h1
      by_cases h2 : k' = q <;> simp [lookupG, h2]
    · simp only [if_neg h1, lookupG, ih]
      by_cases h2 : k' = q
      · subst h2
        have h3 : k ≠ k' := fun e => h1 e.symm
        simp [h3]
      · simp [h2]

theorem lookupG_applyIdent (g : Graph) (fn i q : Ident) :
    lookupG (applyIdent g fn i) q =
      if fn = q then some ((lookupG g q).getD [] ++ [i])
      else if i = q then some ((lookupG g q).getD [])
      else lookupG g q := by
  simp only [applyIdent, lookupG_entryOrDefault, lookupG_entryPush]
  by_cases h1 : fn = q
  · by_cases h2 : i = q <;> simp [h1, h2]
  · by_cases h2 : i = q <;> simp [h1, h2]

theorem applyIdents_append (g : Graph) (fn : Ident) (l1 l2 : List Ident) :
    applyIdents g fn (l1 ++ l2) = applyIdents (applyIdents g fn l1) fn l2 :=
  List.foldl_append _ _ _ _

theorem lookupG_applyIdents (l : List Ident) (g : Graph) (fn q : Ident) :
    lookupG (applyIdents g fn l) q =
      if fn = q ∧ l ≠ [] then some ((lookupG g q).getD [] ++ l)
      else if q ∈ l ∧ lookupG g q = none then some []
      else lookupG g q := by
  induction l generalizing g with
  | nil => simp [applyIdents]
  | cons i rest ih =>
    have step : applyIdents g fn (i :: rest) = applyIdents (applyIdent g fn i) fn rest := rfl
    rw [step, ih, lookupG_applyIdent]
    by_cases h1 : fn = q
    · by_cases h3 : rest = [] <;> simp [h1, h3, List.getD, List.append_assoc]
    · by_cases h2 : i = q
      · subst h2
        simp only [h1, false_and, if_false]
        by_cases h5 : lookupG g i = none
        · simp [h1, h5, List.mem_cons]
        · obtain ⟨w, hw⟩ := Option.ne_none_iff_exists'.mp h5
          simp [h1, hw, List.mem_cons]
      · have hq : q ≠ i := fun e => h2 e.symm
        have hmem : (q ∈ i :: rest) ↔ (q ∈ rest) := by simp [List.mem_cons, hq]
        simp [h1, h2, hmem]

/-! ## The statement walker as a pure sequence of edge insertions -/

theorem build_graph_eq (e : Expr) (fn : Ident) (g : Graph) :
    build_graph e fn g = applyIdents g fn (exprIdents e) := by
  simp [build_graph, get_call_idents_state]

theorem withItems_fold_eq (items : List WithItem) (fn : Ident) (g : Graph) :
    items.foldl
        (fun g item =>
          let g := build_graph item.context_expr fn g
          match item.optional_vars with
          | some item => build_graph item fn g
          | none => g)
        g =
      applyIdents g fn (withItemsIdents items) := by
  induction items generalizing g with
  | nil => simp [withItemsIdents, applyIdents]
  | cons item rest ih =>
    rw [List.foldl_cons, ih]
    cases hov : item.optional_vars with
    | some ov =>
      simp only [hov, withItemsIdents, build_graph_eq, optIdents, applyIdents_append,
        List.append_assoc]
    | none =>
      simp only [hov, withItemsIdents, build_graph_eq, optIdents, applyIdents_append,
        List.append_nil]

theorem exprs_fold_eq (targets : List Expr) (fn : Ident) (g : Graph) :
    targets.foldl (fun g target => build_graph target fn g) g =
      applyIdents g fn (exprIdentsList targets) := by
  induction targets generalizing g with
  | nil => simp [exprIdentsList, applyIdents]
  | cons e rest ih =>
    rw [List.foldl_cons, ih, build_graph_eq, exprIdentsList, applyIdents_append]

mutual

theorem build_graph_from_stmt_eq (s : Stmt) (fn : Ident) (g : Graph) :
    build_graph_from_stmt s fn g = applyIdents g fn (stmtIdents s) := by
  cases s with
  | expr value => simp [build_graph_from_stmt, stmtIdents, build_graph_eq]
  | ret value =>
    cases value with
    | some v => simp [build_graph_from_stmt, stmtIdents, optIdents, build_graph_eq]
    | none => simp [build_graph_from_stmt, stmtIdents, optIdents, applyIdents]
  | assertS test msg =>
    cases msg with
    | some m =>
      simp [build_graph_from_stmt, stmtIdents, optIdents, build_graph_eq, applyIdents_append]
    | none =>
      simp [build_graph_from_stmt, stmtIdents, optIdents, build_graph_eq, applyIdents]
  | tryS body orelse finalbody =>
    have h1 := build_stmts_eq body fn g
    have h2 := build_stmts_eq orelse fn (build_stmts body fn g)
    have h3 := build_stmts_eq finalbody fn (build_stmts orelse fn (build_stmts body fn g))
    simp only [build_graph_from_stmt]
    rw [h3, h2, h1]
    simp only [stmtIdents, applyIdents_append, List.append_assoc]
  | withS items body =>
    have h2 := build_stmts_eq body fn
    simp only [build_graph_from_stmt, withItems_fold_eq, h2, stmtIdents, applyIdents_append]
  | forS target iter body =>
    have h2 := build_stmts_eq body fn
    simp only [build_graph_from_stmt, build_graph_eq, h2, stmtIdents, applyIdents_append,
      List.append_assoc]
  | assign targets value =>
    simp only [build_graph_from_stmt]
    rw [exprs_fold_eq, build_graph_eq]
    simp only [stmtIdents, applyIdents_append]
  | annAssign target value =>
    cases value with
    | some v =>
      simp [build_graph_from_stmt, stmtIdents, optIdents, build_graph_eq, applyIdents_append]
    | none =>
      simp [build_graph_from_stmt, stmtIdents, optIdents, build_graph_eq, applyIdents]
  | delete targets => simp [build_graph_from_stmt, exprs_fold_eq, stmtIdents]
  | whileS test body =>
    have h2 := build_stmts_eq body fn
    simp only [build_graph_from_stmt, build_graph_eq, h2, stmtIdents, applyIdents_append]
  | augAssign target value =>
    simp [build_graph_from_stmt, stmtIdents, build_graph_eq, applyIdents_append]
  | functionDef name body => simp [build_graph_from_stmt, stmtIdents, applyIdents]
  | asyncFunctionDef name body => simp [build_graph_from_stmt, stmtIdents, applyIdents]
  | other => simp [build_graph_from_stmt, stmtIdents, applyIdents]

theorem build_stmts_eq (l : List Stmt) (fn : Ident) (g : Graph) :
    build_stmts l fn g = applyIdents g fn (stmtsIdents l) := by
  cases l with
  | nil => simp [build_stmts, stmtsIdents, applyIdents]
  | cons s rest =>
    have h1 := build_graph_from_stmt_eq s fn g
    have h2 := build_stmts_eq rest fn (build_graph_from_stmt s fn g)
    simp only [build_stmts]
    rw [h2, h1]
    simp only [stmtsIdents, applyIdents_append]

end

/-! ## Per-key evolution of the graph across the module fold -/

def isFunctionLike : Stmt → Bool
  | .functionDef _ _ | .asyncFunctionDef _ _ => true
  | _ => false

/-- The names of the module's top-level function-like definitions. -/
def defNames : List Stmt → List Ident
  | [] => []
  | .functionDef name _ :: rest => name :: defNames rest
  | .asyncFunctionDef name _ :: rest => name :: defNames rest
  | _ :: rest => defNames rest

/-- The flat list of call sites of a module in traversal (source) order:
one `(scope, callee)` pair per extracted call reference. -/
def moduleCallSites : List Stmt → List (Ident × Ident)
  | [] => []
  | .functionDef name body :: rest =>
    (stmtsIdents body).map (fun i => (name, i)) ++ moduleCallSites rest
  | .asyncFunctionDef name body :: rest =>
    (stmtsIdents body).map (fun i => (name, i)) ++ moduleCallSites rest
  | s :: rest => (stmtIdents s).map (fun i => ("...", i)) ++ moduleCallSites rest

/-- How one top-level statement transforms the value stored under key `k`
(`none` = key absent).  A definition named `k` resets the entry to exactly
its body's idents; a definition of another name can only auto-create `k`
as an empty leaf (if its body references `k`); any other statement appends
its idents to the module scope `"..."` and can only auto-create other
keys as empty leaves. -/
def stepKey (k : Ident) (v : Option (List Ident)) (s : Stmt) : Option (List Ident) :=
  match s with
  | .functionDef name body | .asyncFunctionDef name body =>
    if k = name then some (stmtsIdents body)
    else if k ∈ stmtsIdents body ∧ v = none then some []
    else v
  | _ =>
    if k = "..." then
      (if stmtIdents s = [] then v else some (v.getD [] ++ stmtIdents s))
    else if k ∈ stmtIdents s ∧ v = none then some []
    else v

theorem nondef_shape (k : Ident) (l : List Ident) (v : Option (List Ident)) :
    (if ("..." : Ident) = k ∧ l ≠ [] then some (v.getD [] ++ l)
     else if k ∈ l ∧ v = none then some []
     else v) =
    (if k = "..." then (if l = [] then v else some (v.getD [] ++ l))
     else if k ∈ l ∧ v = none then some []
     else v) := by
  by_cases h1 : k = "..."
  · subst h1
    by_cases h2 : l = [] <;> simp [h2]
  · have h3 : ¬(("..." : Ident) = k ∧ l ≠ []) := fun e => h1 e.1.symm
    simp [h3, h1]

theorem def_shape (k name : Ident) (l : List Ident) (v : Option (List Ident)) :
    (if name = k ∧ l ≠ [] then some (((if name = k then some ([] : List Ident) else v).getD []) ++ l)
     else if k ∈ l ∧ (if name = k then some ([] : List Ident) else v) = none then some []
     else (if name = k then some ([] : List Ident) else v)) =
    (if k = name then some l
     else if k ∈ l ∧ v = none then some []
     else v) := by
  by_cases h1 : name = k
  · subst h1
    by_cases h2 : l = [] <;> simp [h2]
  · have h3 : ¬(k = name) := fun e => h1 e.symm
    simp [h1, h3]

theorem lookupG_generate_step (g : Graph) (s : Stmt) (k : Ident) :
    lookupG (generate_step g s) k = stepKey k (lookupG g k) s := by
  cases s with
  | functionDef name body =>
    simp only [generate_step, build_stmts_eq, lookupG_applyIdents, lookupG_insertG, stepKey]
    exact def_shape k name _ _
  | asyncFunctionDef name body =>
    simp only [generate_step, build_stmts_eq, lookupG_applyIdents, lookupG_insertG, stepKey]
    exact def_shape k name _ _
  | expr value =>
    simp only [generate_step, build_graph_from_stmt_eq, lookupG_applyIdents, stepKey]
    exact nondef_shape k _ _
  | ret value =>
    simp only [generate_step, build_graph_from_stmt_eq, lookupG_applyIdents, stepKey]
    exact nondef_shape k _ _
  | assertS test msg =>
    simp only [generate_step, build_graph_from_stmt_eq, lookupG_applyIdents, stepKey]
    exact nondef_shape k _ _
  | tryS body orelse finalbody =>
    simp only [generate_step, build_graph_from_stmt_eq, lookupG_applyIdents, stepKey]
    exact nondef_shape k _ _
  | withS items body =>
    simp only [generate_step, build_graph_from_stmt_eq, lookupG_applyIdents, stepKey]
    exact nondef_shape k _ _
  | forS target iter body =>
    simp only [generate_step, build_graph_from_stmt_eq, lookupG_applyIdents, stepKey]
    exact nondef_shape k _ _
  | assign targets value =>
    simp only [generate_step, build_graph_from_stmt_eq, lookupG_applyIdents, stepKey]
    exact nondef_shape k _ _
  | annAssign target value =>
    simp only [generate_step, build_graph_from_stmt_eq, lookupG_applyIdents, stepKey]
    exact nondef_shape k _ _
  | delete targets =>
    simp only [generate_step, build_graph_from_stmt_eq, lookupG_applyIdents, stepKey]
    exact nondef_shape k _ _
  | whileS test body =>
    simp only [generate_step, build_graph_from_stmt_eq, lookupG_applyIdents, stepKey]
    exact nondef_shape k _ _
  | augAssign target value =>
    simp only [generate_step, build_graph_from_stmt_eq, lookupG_applyIdents, stepKey]
    exact nondef_shape k _ _
  | other =>
    simp only [generate_step, build_graph_from_stmt_eq, lookupG_applyIdents, stepKey]
    exact nondef_shape k _ _

theorem lookupG_foldl_generate_step (m : List Stmt) (g : Graph) (k : Ident) :
    lookupG (m.foldl generate_step g) k = m.foldl (stepKey k) (lookupG g k) := by
  induction m generalizing g with
  | nil => rfl
  | cons s rest ih =>
    rw [List.foldl_cons, List.foldl_cons, ih, lookupG_generate_step]

theorem lookupG_generateGraphModule (m : List Stmt) (k : Ident) :
    lookupG (generateGraphModule m) k = m.foldl (stepKey k) none := by
  rw [generateGraphModule, lookupG_foldl_generate_step]
  rfl

/-- The per-scope projection of the module's call sites, computed
recursively: the idents a scope `k` collects, in source order. -/
def scopeSeq : List Stmt → Ident → List Ident
  | [], _ => []
  | .functionDef name body :: rest, k =>
    (if k = name then stmtsIdents body else []) ++ scopeSeq rest k
  | .asyncFunctionDef name body :: rest, k =>
    (if k = name then stmtsIdents body else []) ++ scopeSeq rest k
  | s :: rest, k => (if k = "..." then stmtIdents s else []) ++ scopeSeq rest k

/-- Every ident referenced anywhere in the module, in traversal order. -/
def allIdents (m : List Stmt) : List Ident :=
  (moduleCallSites m).map (fun p => p.2)

theorem scopeSeq_eq_filter (m : List Stmt) (k : Ident) :
    scopeSeq m k = ((moduleCallSites m).filter (fun p => p.1 = k)).map (fun p => p.2) := by
  induction m with
  | nil => simp [scopeSeq, moduleCallSites]
  | cons s rest ih =>
    cases s with
    | functionDef name body =>
      by_cases h : k = name
      · subst h
        simp [scopeSeq, moduleCallSites, ih, List.filter_append, List.filter_map,
          Function.comp_def]
      · have hnk : ¬name = k := fun e => h e.symm
        simp [scopeSeq, moduleCallSites, ih, List.filter_append, List.filter_map,
          Function.comp_def, h, hnk]
    | asyncFunctionDef name body =>
      by_cases h : k = name
      · subst h
        simp [scopeSeq, moduleCallSites, ih, List.filter_append, List.filter_map,
          Function.comp_def]
      · have hnk : ¬name = k := fun e => h e.symm
        simp [scopeSeq, moduleCallSites, ih, List.filter_append, List.filter_map,
          Function.comp_def, h, hnk]
    | expr value =>
      by_cases h : k = "..."
      · subst h
        simp [scopeSeq, moduleCallSites, ih, List.filter_append, List.filter_map,
          Function.comp_def]
      · have hnk : ¬"..." = k := fun e => h e.symm
        simp [scopeSeq, moduleCallSites, ih, List.filter_append, List.filter_map,
          Function.comp_def, h, hnk]
    | ret value =>
      by_cases h : k = "..."
      · subst h
        simp [scopeSeq, moduleCallSites, ih, List.filter_append, List.filter_map,
          Function.comp_def]
      · have hnk : ¬"..." = k := fun e => h e.symm
        simp [scopeSeq, moduleCallSites, ih, List.filter_append, List.filter_map,
          Function.comp_def, h, hnk]
    | assertS test msg =>
      by_cases h : k = "..."
      · subst h
        simp [scopeSeq, moduleCallSites, ih, List.filter_append, List.filter_map,
          Function.comp_def]
      · have hnk : ¬"..." = k := fun e => h e.symm
        simp [scopeSeq, moduleCallSites, ih, List.filter_append, List.filter_map,
          Function.comp_def, h, hnk]
    | tryS body orelse finalbody =>
      by_cases h : k = "..."
      · subst h
        simp [scopeSeq, moduleCallSites, ih, List.filter_append, List.filter_map,
          Function.comp_def]
      · have hnk : ¬"..." = k := fun e => h e.symm
        simp [scopeSeq, moduleCallSites, ih, List.filter_append, List.filter_map,
          Function.comp_def, h, hnk]
    | withS items body =>
      by_cases h : k = "..."
      · subst h
        simp [scopeSeq, moduleCallSites, ih, List.filter_append, List.filter_map,
          Function.comp_def]
      · have hnk : ¬"..." = k := fun e => h e.symm
        simp [scopeSeq, moduleCallSites, ih, List.filter_append, List.filter_map,
          Function.comp_def, h, hnk]
    | forS target iter body =>
      by_cases h : k = "..."
      · subst h
        simp [scopeSeq, moduleCallSites, ih, List.filter_append, List.filter_map,
          Function.comp_def]
      · have hnk : ¬"..." = k := fun e => h e.symm
        simp [scopeSeq, moduleCallSites, ih, List.filter_append, List.filter_map,
          Function.comp_def, h, hnk]
    | assign targets value =>
      by_cases h : k = "..."
      · subst h
        simp [scopeSeq, moduleCallSites, ih, List.filter_append, List.filter_map,
          Function.comp_def]
      · have hnk : ¬"..." = k := fun e => h e.symm
        simp [scopeSeq, moduleCallSites, ih, List.filter_append, List.filter_map,
          Function.comp_def, h, hnk]
    | annAssign target value =>
      by_cases h : k = "..."
      · subst h
        simp [scopeSeq, moduleCallSites, ih, List.filter_append, List.filter_map,
          Function.comp_def]
      · have hnk : ¬"..." = k := fun e => h e.symm
        simp [scopeSeq, moduleCallSites, ih, List.filter_append, List.filter_map,
          Function.comp_def, h, hnk]
    | delete targets =>
      by_cases h : k = "..."
      · subst h
        simp [scopeSeq, moduleCallSites, ih, List.filter_append, List.filter_map,
          Function.comp_def]
      · have hnk : ¬"..." = k := fun e => h e.symm
        simp [scopeSeq, moduleCallSites, ih, List.filter_append, List.filter_map,
          Function.comp_def, h, hnk]
    | whileS test body =>
      by_cases h : k = "..."
      · subst h
        simp [scopeSeq, moduleCallSites, ih, List.filter_append, List.filter_map,
          Function.comp_def]
      · have hnk : ¬"..." = k := fun e => h e.symm
        simp [scopeSeq, moduleCallSites, ih, List.filter_append, List.filter_map,
          Function.comp_def, h, hnk]
    | augAssign target value =>
      by_cases h : k = "..."
      · subst h
        simp [scopeSeq, moduleCallSites, ih, List.filter_append, List.filter_map,
          Function.comp_def]
      · have hnk : ¬"..." = k := fun e => h e.symm
        simp [scopeSeq, moduleCallSites, ih, List.filter_append, List.filter_map,
          Function.comp_def, h, hnk]
    | other =>
      by_cases h : k = "..."
      · subst h
        simp [scopeSeq, moduleCallSites, ih, List.filter_append, List.filter_map,
          Function.comp_def]
      · have hnk : ¬"..." = k := fun e => h e.symm
        simp [scopeSeq, moduleCallSites, ih, List.filter_append, List.filter_map,
          Function.comp_def, h, hnk]

theorem defNames_cons (s : Stmt) (rest : List Stmt) :
    defNames (s :: rest) = defNames [s] ++ defNames rest := by
  cases s <;> simp [defNames]

theorem stepKey_some_of (s : Stmt) (k : Ident) (x : List Ident) (h1 : k ∉ defNames [s])
    (h2 : k ≠ "...") :
    stepKey k (some x) s = some x := by
  cases s <;> simp_all [stepKey, defNames]

theorem foldl_stepKey_stable (m : List Stmt) (k : Ident) (hk : k ∉ defNames m)
    (hkd : k ≠ "...") (x : List Ident) :
    m.foldl (stepKey k) (some x) = some x := by
  induction m with
  | nil => rfl
  | cons s rest ih =>
    rw [defNames_cons] at hk
    simp only [List.mem_append] at hk
    push_neg at hk
    rw [List.foldl_cons, stepKey_some_of s k x hk.1 hkd]
    exact ih hk.2

theorem scopeSeq_eq_nil (m : List Stmt) (k : Ident) (hk : k ∉ defNames m) (hkd : k ≠ "...") :
    scopeSeq m k = [] := by
  induction m with
  | nil => rfl
  | cons s rest ih =>
    rw [defNames_cons] at hk
    simp only [List.mem_append] at hk
    push_neg at hk
    have hrest := ih hk.2
    have h1 := hk.1
    cases s <;> simp_all [scopeSeq, defNames]

theorem foldl_stepKey_defname (m : List Stmt) (k : Ident) (hnd : (defNames m).Nodup)
    (hdots : "..." ∉ defNames m) (hk : k ∈ defNames m) :
    ∀ v : Option (List Ident), m.foldl (stepKey k) v = some (scopeSeq m k) := by
  induction m with
  | nil => simp [defNames] at hk
  | cons s rest ih =>
    intro v
    cases s with
    | functionDef name body =>
      simp only [defNames, List.nodup_cons, List.mem_cons] at hnd hdots hk
      push_neg at hdots
      by_cases hkn : k = name
      · subst hkn
        rw [List.foldl_cons]
        have hstep : stepKey k v (Stmt.functionDef k body) = some (stmtsIdents body) := by
          simp [stepKey]
        rw [hstep, foldl_stepKey_stable rest k hnd.1 (fun e => hdots.1 e.symm)]
        simp [scopeSeq, scopeSeq_eq_nil rest k hnd.1 (fun e => hdots.1 e.symm)]
      · rw [List.foldl_cons, ih hnd.2 hdots.2 (hk.resolve_left hkn)]
        simp [scopeSeq, hkn]
    | asyncFunctionDef name body =>
      simp only [defNames, List.nodup_cons, List.mem_cons] at hnd hdots hk
      push_neg at hdots
      by_cases hkn : k = name
      · subst hkn
        rw [List.foldl_cons]
        have hstep : stepKey k v (Stmt.asyncFunctionDef k body) = some (stmtsIdents body) := by
          simp [stepKey]
        rw [hstep, foldl_stepKey_stable rest k hnd.1 (fun e => hdots.1 e.symm)]
        simp [scopeSeq, scopeSeq_eq_nil rest k hnd.1 (fun e => hdots.1 e.symm)]
      · rw [List.foldl_cons, ih hnd.2 hdots.2 (hk.resolve_left hkn)]
        simp [scopeSeq, hkn]
    | expr value =>
      simp only [defNames] at hnd hdots hk
      have hkd : k ≠ "..." := fun e => hdots (e ▸ hk)
      rw [List.foldl_cons, ih hnd hdots hk]
      simp [scopeSeq, hkd]
    | ret value =>
      simp only [defNames] at hnd hdots hk
      have hkd : k ≠ "..." := fun e => hdots (e ▸ hk)
      rw [List.foldl_cons, ih hnd hdots hk]
      simp [scopeSeq, hkd]
    | assertS test msg =>
      simp only [defNames] at hnd hdots hk
      have hkd : k ≠ "..." := fun e => hdots (e ▸ hk)
      rw [List.foldl_cons, ih hnd hdots hk]
      simp [scopeSeq, hkd]
    | tryS body orelse finalbody =>
      simp only [defNames] at hnd hdots hk
      have hkd : k ≠ "..." := fun e => hdots (e ▸ hk)
      rw [List.foldl_cons, ih hnd hdots hk]
      simp [scopeSeq, hkd]
    | withS items body =>
      simp only [defNames] at hnd hdots hk
      have hkd : k ≠ "..." := fun e => hdots (e ▸ hk)
      rw [List.foldl_cons, ih hnd hdots hk]
      simp [scopeSeq, hkd]
    | forS target iter body =>
      simp only [defNames] at hnd hdots hk
      have hkd : k ≠ "..." := fun e => hdots (e ▸ hk)
      rw [List.foldl_cons, ih hnd hdots hk]
      simp [scopeSeq, hkd]
    | assign targets value =>
      simp only [defNames] at hnd hdots hk
      have hkd : k ≠ "..." := fun e => hdots (e ▸ hk)
      rw [List.foldl_cons, ih hnd hdots hk]
      simp [scopeSeq, hkd]
    | annAssign target value =>
      simp only [defNames] at hnd hdots hk
      have hkd : k ≠ "..." := fun e => hdots (e ▸ hk)
      rw [List.foldl_cons, ih hnd hdots hk]
      simp [scopeSeq, hkd]
    | delete targets =>
      simp only [defNames] at hnd hdots hk
      have hkd : k ≠ "..." := fun e => hdots (e ▸ hk)
      rw [List.foldl_cons, ih hnd hdots hk]
      simp [scopeSeq, hkd]
    | whileS test body =>
      simp only [defNames] at hnd hdots hk
      have hkd : k ≠ "..." := fun e => hdots (e ▸ hk)
      rw [List.foldl_cons, ih hnd hdots hk]
      simp [scopeSeq, hkd]
    | augAssign target value =>
      simp only [defNames] at hnd hdots hk
      have hkd : k ≠ "..." := fun e => hdots (e ▸ hk)
      rw [List.foldl_cons, ih hnd hdots hk]
      simp [scopeSeq, hkd]
    | other =>
      simp only [defNames] at hnd hdots hk
      have hkd : k ≠ "..." := fun e => hdots (e ▸ hk)
      rw [List.foldl_cons, ih hnd hdots hk]
      simp [scopeSeq, hkd]

/-- What one statement does to the key of the module scope `"..."`:
a definition can only auto-create it as an empty leaf (if its body
references `"..."`), any other statement appends its idents. -/
theorem stepKey_dots_def (name : Ident) (body : List Stmt) (hname : name ≠ "...")
    (v : Option (List Ident)) :
    (stepKey "..." v (Stmt.functionDef name body) = v ∨
      (stepKey "..." v (Stmt.functionDef name body) = some [] ∧ v = none)) ∧
    (stepKey "..." v (Stmt.asyncFunctionDef name body) = v ∨
      (stepKey "..." v (Stmt.asyncFunctionDef name body) = some [] ∧ v = none)) := by
  have h1 : ¬(("..." : Ident) = name) := fun e => hname e.symm
  constructor <;>
    · simp only [stepKey, if_neg h1]
      split_ifs with h2
      · exact Or.inr ⟨rfl, h2.2⟩
      · exact Or.inl rfl

theorem foldl_stepKey_dots_nondef (rest : List Stmt)
    (ih : "..." ∉ defNames rest →
      ∀ v : Option (List Ident),
        rest.foldl (stepKey "...") v = some (v.getD [] ++ scopeSeq rest "...") ∨
        (rest.foldl (stepKey "...") v = v ∧ scopeSeq rest "..." = []))
    (hdots : "..." ∉ defNames rest) (s : Stmt)
    (hstep : ∀ w : Option (List Ident), stepKey "..." w s =
      if stmtIdents s = [] then w else some (w.getD [] ++ stmtIdents s))
    (hseq : scopeSeq (s :: rest) "..." = stmtIdents s ++ scopeSeq rest "...")
    (v : Option (List Ident)) :
    (s :: rest).foldl (stepKey "...") v = some (v.getD [] ++ scopeSeq (s :: rest) "...") ∨
    ((s :: rest).foldl (stepKey "...") v = v ∧ scopeSeq (s :: rest) "..." = []) := by
  by_cases hl : stmtIdents s = []
  · rw [List.foldl_cons, hstep v, if_pos hl]
    rcases ih hdots v with h2 | ⟨h2, h3⟩
    · left
      rw [h2, hseq, hl]
      simp
    · right
      refine ⟨h2, ?_⟩
      rw [hseq, hl, h3]
      simp
  · rw [List.foldl_cons, hstep v, if_neg hl]
    rcases ih hdots (some (v.getD [] ++ stmtIdents s)) with h2 | ⟨h2, h3⟩
    · left
      rw [h2, hseq]
      simp [List.append_assoc]
    · left
      rw [h2, hseq, h3]
      simp

theorem foldl_stepKey_dots (m : List Stmt) (hdots : "..." ∉ defNames m) :
    ∀ v : Option (List Ident),
      m.foldl (stepKey "...") v = some (v.getD [] ++ scopeSeq m "...") ∨
      (m.foldl (stepKey "...") v = v ∧ scopeSeq m "..." = []) := by
  induction m with
  | nil => intro v; right; exact ⟨rfl, rfl⟩
  | cons s rest ih =>
    rw [defNames_cons] at hdots
    simp only [List.mem_append] at hdots
    push_neg at hdots
    intro v
    cases s with
    | functionDef name body =>
      have hname : name ≠ "..." := by
        intro e
        exact hdots.1 (by simp [defNames, e])
      have hne : ¬("..." : Ident) = name := fun e => hname e.symm
      rw [List.foldl_cons]
      rcases (stepKey_dots_def name body hname v).1 with h | ⟨h, hv⟩
      · rw [h]
        rcases ih hdots.2 v with h2 | ⟨h2, h3⟩
        · left
          rw [h2]
          simp [scopeSeq, hne]
        · right
          refine ⟨h2, ?_⟩
          simp [scopeSeq, h3, hne]
      · rw [h, hv]
        rcases ih hdots.2 (some []) with h2 | ⟨h2, h3⟩
        · left
          rw [h2]
          simp [scopeSeq, hne]
        · left
          rw [h2]
          simp [scopeSeq, h3, hne]
    | asyncFunctionDef name body =>
      have hname : name ≠ "..." := by
        intro e
        exact hdots.1 (by simp [defNames, e])
      have hne : ¬("..." : Ident) = name := fun e => hname e.symm
      rw [List.foldl_cons]
      rcases (stepKey_dots_def name body hname v).2 with h | ⟨h, hv⟩
      · rw [h]
        rcases ih hdots.2 v with h2 | ⟨h2, h3⟩
        · left
          rw [h2]
          simp [scopeSeq, hne]
        · right
          refine ⟨h2, ?_⟩
          simp [scopeSeq, h3, hne]
      · rw [h, hv]
        rcases ih hdots.2 (some []) with h2 | ⟨h2, h3⟩
        · left
          rw [h2]
          simp [scopeSeq, hne]
        · left
          rw [h2]
          simp [scopeSeq, h3, hne]
    | expr value =>
      exact foldl_stepKey_dots_nondef rest ih hdots.2 (Stmt.expr value)
        (fun w => by simp [stepKey]) (by simp [scopeSeq]) v
    | ret value =>
      exact foldl_stepKey_dots_nondef rest ih hdots.2 (Stmt.ret value)
        (fun w => by simp [stepKey]) (by simp [scopeSeq]) v
    | assertS test msg =>
      exact foldl_stepKey_dots_nondef rest ih hdots.2 (Stmt.assertS test msg)
        (fun w => by simp [stepKey]) (by simp [scopeSeq]) v
    | tryS body orelse finalbody =>
      exact foldl_stepKey_dots_nondef rest ih hdots.2 (Stmt.tryS body orelse finalbody)
        (fun w => by simp [stepKey]) (by simp [scopeSeq]) v
    | withS items body =>
      exact foldl_stepKey_dots_nondef rest ih hdots.2 (Stmt.withS items body)
        (fun w => by simp [stepKey]) (by simp [scopeSeq]) v
    | forS target iter body =>
      exact foldl_stepKey_dots_nondef rest ih hdots.2 (Stmt.forS target iter body)
        (fun w => by simp [stepKey]) (by simp [scopeSeq]) v
    | assign targets value =>
      exact foldl_stepKey_dots_nondef rest ih hdots.2 (Stmt.assign targets value)
        (fun w => by simp [stepKey]) (by simp [scopeSeq]) v
    | annAssign target value =>
      exact foldl_stepKey_dots_nondef rest ih hdots.2 (Stmt.annAssign target value)
        (fun w => by simp [stepKey]) (by simp [scopeSeq]) v
    | delete targets =>
      exact foldl_stepKey_dots_nondef rest ih hdots.2 (Stmt.delete targets)
        (fun w => by simp [stepKey]) (by simp [scopeSeq]) v
    | whileS test body =>
      exact foldl_stepKey_dots_nondef rest ih hdots.2 (Stmt.whileS test body)
        (fun w => by simp [stepKey]) (by simp [scopeSeq]) v
    | augAssign target value =>
      exact foldl_stepKey_dots_nondef rest ih hdots.2 (Stmt.augAssign target value)
        (fun w => by simp [stepKey]) (by simp [scopeSeq]) v
    | other =>
      exact foldl_stepKey_dots_nondef rest ih hdots.2 (Stmt.other)
        (fun w => by simp [stepKey]) (by simp [scopeSeq]) v

theorem stepKey_other_aux (c : Prop) [Decidable c] (v : Option (List Ident)) :
    (if c ∧ v = none then some ([] : List Ident) else v) = v ∨
    ((if c ∧ v = none then some ([] : List Ident) else v) = some [] ∧ v = none) := by
  split_ifs with h
  · exact Or.inr ⟨rfl, h.2⟩
  · exact Or.inl rfl

theorem stepKey_other_of (s : Stmt) (k : Ident) (h1 : k ∉ defNames [s]) (h2 : k ≠ "...")
    (v : Option (List Ident)) :
    stepKey k v s = v ∨ (stepKey k v s = some [] ∧ v = none) := by
  cases s with
  | functionDef name body =>
    have hkn : ¬k = name := by simpa [defNames] using h1
    simp only [stepKey, if_neg hkn]
    exact stepKey_other_aux _ v
  | asyncFunctionDef name body =>
    have hkn : ¬k = name := by simpa [defNames] using h1
    simp only [stepKey, if_neg hkn]
    exact stepKey_other_aux _ v
  | expr value =>
    simp only [stepKey, if_neg h2]
    exact stepKey_other_aux _ v
  | ret value =>
    simp only [stepKey, if_neg h2]
    exact stepKey_other_aux _ v
  | assertS test msg =>
    simp only [stepKey, if_neg h2]
    exact stepKey_other_aux _ v
  | tryS body orelse finalbody =>
    simp only [stepKey, if_neg h2]
    exact stepKey_other_aux _ v
  | withS items body =>
    simp only [stepKey, if_neg h2]
    exact stepKey_other_aux _ v
  | forS target iter body =>
    simp only [stepKey, if_neg h2]
    exact stepKey_other_aux _ v
  | assign targets value =>
    simp only [stepKey, if_neg h2]
    exact stepKey_other_aux _ v
  | annAssign target value =>
    simp only [stepKey, if_neg h2]
    exact stepKey_other_aux _ v
  | delete targets =>
    simp only [stepKey, if_neg h2]
    exact stepKey_other_aux _ v
  | whileS test body =>
    simp only [stepKey, if_neg h2]
    exact stepKey_other_aux _ v
  | augAssign target value =>
    simp only [stepKey, if_neg h2]
    exact stepKey_other_aux _ v
  | other =>
    simp only [stepKey, if_neg h2]
    exact stepKey_other_aux _ v

theorem foldl_stepKey_other (m : List Stmt) (k : Ident) (hk : k ∉ defNames m)
    (hkd : k ≠ "...") :
    ∀ v : Option (List Ident),
      m.foldl (stepKey k) v = v ∨ m.foldl (stepKey k) v = some [] := by
  induction m with
  | nil => intro v; exact Or.inl rfl
  | cons s rest ih =>
    rw [defNames_cons] at hk
    simp only [List.mem_append] at hk
    push_neg at hk
    intro v
    rw [List.foldl_cons]
    rcases stepKey_other_of s k hk.1 hkd v with h | ⟨h, _⟩
    · rw [h]
      exact ih hk.2 v
    · rw [h, foldl_stepKey_stable rest k hk.2 hkd]
      exact Or.inr rfl

/-- The idents a single statement contributes to `allIdents`. -/
def stmtAllIdents : Stmt → List Ident
  | .functionDef _ body => stmtsIdents body
  | .asyncFunctionDef _ body => stmtsIdents body
  | s => stmtIdents s

theorem allIdents_cons (s : Stmt) (rest : List Stmt) :
    allIdents (s :: rest) = stmtAllIdents s ++ allIdents rest := by
  cases s <;> simp [allIdents, moduleCallSites, stmtAllIdents, List.map_map, Function.comp_def]

theorem stepKey_isSome (k : Ident) (x : List Ident) (s : Stmt) :
    (stepKey k (some x) s).isSome = true := by
  cases s <;> simp only [stepKey] <;> split_ifs <;> simp_all

theorem foldl_stepKey_some_ne_none (m : List Stmt) (k : Ident) (x : List Ident) :
    m.foldl (stepKey k) (some x) ≠ none := by
  induction m generalizing x with
  | nil => simp
  | cons s rest ih =>
    rw [List.foldl_cons]
    obtain ⟨y, hy⟩ := Option.isSome_iff_exists.mp (stepKey_isSome k x s)
    rw [hy]
    exact ih y

theorem foldl_stepKey_dots_none_iff (m : List Stmt) (hdots : "..." ∉ defNames m)
    (hids : "..." ∉ allIdents m) :
    m.foldl (stepKey "...") none = none ↔
      ∀ s ∈ m, isFunctionLike s = true ∨ stmtIdents s = [] := by
  induction m with
  | nil => simp
  | cons s rest ih =>
    rw [defNames_cons] at hdots
    rw [allIdents_cons] at hids
    simp only [List.mem_append] at hdots hids
    push_neg at hdots hids
    rw [List.foldl_cons]
    cases s with
    | functionDef name body =>
      have hstep : stepKey "..." none (Stmt.functionDef name body) = none := by
        have h1 : ¬(("..." : Ident) = name) := by
          intro e
          exact hdots.1 (by simp [defNames, e])
        have h2 : ("..." : Ident) ∉ stmtsIdents body := by
          simpa [stmtAllIdents] using hids.1
        simp [stepKey, h1, h2]
      rw [hstep, ih hdots.2 hids.2]
      simp [isFunctionLike]
    | asyncFunctionDef name body =>
      have hstep : stepKey "..." none (Stmt.asyncFunctionDef name body) = none := by
        have h1 : ¬(("..." : Ident) = name) := by
          intro e
          exact hdots.1 (by simp [defNames, e])
        have h2 : ("..." : Ident) ∉ stmtsIdents body := by
          simpa [stmtAllIdents] using hids.1
        simp [stepKey, h1, h2]
      rw [hstep, ih hdots.2 hids.2]
      simp [isFunctionLike]
    | expr value =>
      by_cases hl : stmtIdents (Stmt.expr value) = []
      · have hstep : stepKey "..." none (Stmt.expr value) = none := by
          simp [stepKey, hl]
        rw [hstep, ih hdots.2 hids.2]
        simp [isFunctionLike, hl]
      · have hstep : stepKey "..." none (Stmt.expr value) =
            some (Option.getD none [] ++ stmtIdents (Stmt.expr value)) := by
          simp [stepKey, hl]
        rw [hstep]
        constructor
        · intro hcontra
          exact absurd hcontra (foldl_stepKey_some_ne_none rest "..." _)
        · intro hall
          exfalso
          rcases hall (Stmt.expr value) (List.mem_cons_self _ _) with h | h
          · simp [isFunctionLike] at h
          · exact hl h
    | ret value =>
      by_cases hl : stmtIdents (Stmt.ret value) = []
      · have hstep : stepKey "..." none (Stmt.ret value) = none := by
          simp [stepKey, hl]
        rw [hstep, ih hdots.2 hids.2]
        simp [isFunctionLike, hl]
      · have hstep : stepKey "..." none (Stmt.ret value) =
            some (Option.getD none [] ++ stmtIdents (Stmt.ret value)) := by
          simp [stepKey, hl]
        rw [hstep]
        constructor
        · intro hcontra
          exact absurd hcontra (foldl_stepKey_some_ne_none rest "..." _)
        · intro hall
          exfalso
          rcases hall (Stmt.ret value) (List.mem_cons_self _ _) with h | h
          · simp [isFunctionLike] at h
          · exact hl h
    | assertS test msg =>
      by_cases hl : stmtIdents (Stmt.assertS test msg) = []
      · have hstep : stepKey "..." none (Stmt.assertS test msg) = none := by
          simp [stepKey, hl]
        rw [hstep, ih hdots.2 hids.2]
        simp [isFunctionLike, hl]
      · have hstep : stepKey "..." none (Stmt.assertS test msg) =
            some (Option.getD none [] ++ stmtIdents (Stmt.assertS test msg)) := by
          simp [stepKey, hl]
        rw [hstep]
        constructor
        · intro hcontra
          exact absurd hcontra (foldl_stepKey_some_ne_none rest "..." _)
        · intro hall
          exfalso
          rcases hall (Stmt.assertS test msg) (List.mem_cons_self _ _) with h | h
          · simp [isFunctionLike] at h
          · exact hl h
    | tryS body orelse finalbody =>
      by_cases hl : stmtIdents (Stmt.tryS body orelse finalbody) = []
      · have hstep : stepKey "..." none (Stmt.tryS body orelse finalbody) = none := by
          simp [stepKey, hl]
        rw [hstep, ih hdots.2 hids.2]
        simp [isFunctionLike, hl]
      · have hstep : stepKey "..." none (Stmt.tryS body orelse finalbody) =
            some (Option.getD none [] ++ stmtIdents (Stmt.tryS body orelse finalbody)) := by
          simp [stepKey, hl]
        rw [hstep]
        constructor
        · intro hcontra
          exact absurd hcontra (foldl_stepKey_some_ne_none rest "..." _)
        · intro hall
          exfalso
          rcases hall (Stmt.tryS body orelse finalbody) (List.mem_cons_self _ _) with h | h
          · simp [isFunctionLike] at h
          · exact hl h
    | withS items body =>
      by_cases hl : stmtIdents (Stmt.withS items body) = []
      · have hstep : stepKey "..." none (Stmt.withS items body) = none := by
          simp [stepKey, hl]
        rw [hstep, ih hdots.2 hids.2]
        simp [isFunctionLike, hl]
      · have hstep : stepKey "..." none (Stmt.withS items body) =
            some (Option.getD none [] ++ stmtIdents (Stmt.withS items body)) := by
          simp [stepKey, hl]
        rw [hstep]
        constructor
        · intro hcontra
          exact absurd hcontra (foldl_stepKey_some_ne_none rest "..." _)
        · intro hall
          exfalso
          rcases hall (Stmt.withS items body) (List.mem_cons_self _ _) with h | h
          · simp [isFunctionLike] at h
          · exact hl h
    | forS target iter body =>
      by_cases hl : stmtIdents (Stmt.forS target iter body) = []
      · have hstep : stepKey "..." none (Stmt.forS target iter body) = none := by
          simp [stepKey, hl]
        rw [hstep, ih hdots.2 hids.2]
        simp [isFunctionLike, hl]
      · have hstep : stepKey "..." none (Stmt.forS target iter body) =
            some (Option.getD none [] ++ stmtIdents (Stmt.forS target iter body)) := by
          simp [stepKey, hl]
        rw [hstep]
        constructor
        · intro hcontra
          exact absurd hcontra (foldl_stepKey_some_ne_none rest "..." _)
        · intro hall
          exfalso
          rcases hall (Stmt.forS target iter body) (List.mem_cons_self _ _) with h | h
          · simp [isFunctionLike] at h
          · exact hl h
    | assign targets value =>
      by_cases hl : stmtIdents (Stmt.assign targets value) = []
      · have hstep : stepKey "..." none (Stmt.assign targets value) = none := by
          simp [stepKey, hl]
        rw [hstep, ih hdots.2 hids.2]
        simp [isFunctionLike, hl]
      · have hstep : stepKey "..." none (Stmt.assign targets value) =
            some (Option.getD none [] ++ stmtIdents (Stmt.assign targets value)) := by
          simp [stepKey, hl]
        rw [hstep]
        constructor
        · intro hcontra
          exact absurd hcontra (foldl_stepKey_some_ne_none rest "..." _)
        · intro hall
          exfalso
          rcases hall (Stmt.assign targets value) (List.mem_cons_self _ _) with h | h
          · simp [isFunctionLike] at h
          · exact hl h
    | annAssign target value =>
      by_cases hl : stmtIdents (Stmt.annAssign target value) = []
      · have hstep : stepKey "..." none (Stmt.annAssign target value) = none := by
          simp [stepKey, hl]
        rw [hstep, ih hdots.2 hids.2]
        simp [isFunctionLike, hl]
      · have hstep : stepKey "..." none (Stmt.annAssign target value) =
            some (Option.getD none [] ++ stmtIdents (Stmt.annAssign target value)) := by
          simp [stepKey, hl]
        rw [hstep]
        constructor
        · intro hcontra
          exact absurd hcontra (foldl_stepKey_some_ne_none rest "..." _)
        · intro hall
          exfalso
          rcases hall (Stmt.annAssign target value) (List.mem_cons_self _ _) with h | h
          · simp [isFunctionLike] at h
          · exact hl h
    | delete targets =>
      by_cases hl : stmtIdents (Stmt.delete targets) = []
      · have hstep : stepKey "..." none (Stmt.delete targets) = none := by
          simp [stepKey, hl]
        rw [hstep, ih hdots.2 hids.2]
        simp [isFunctionLike, hl]
      · have hstep : stepKey "..." none (Stmt.delete targets) =
            some (Option.getD none [] ++ stmtIdents (Stmt.delete targets)) := by
          simp [stepKey, hl]
        rw [hstep]
        constructor
        · intro hcontra
          exact absurd hcontra (foldl_stepKey_some_ne_none rest "..." _)
        · intro hall
          exfalso
          rcases hall (Stmt.delete targets) (List.mem_cons_self _ _) with h | h
          · simp [isFunctionLike] at h
          · exact hl h
    | whileS test body =>
      by_cases hl : stmtIdents (Stmt.whileS test body) = []
      · have hstep : stepKey "..." none (Stmt.whileS test body) = none := by
          simp [stepKey, hl]
        rw [hstep, ih hdots.2 hids.2]
        simp [isFunctionLike, hl]
      · have hstep : stepKey "..." none (Stmt.whileS test body) =
            some (Option.getD none [] ++ stmtIdents (Stmt.whileS test body)) := by
          simp [stepKey, hl]
        rw [hstep]
        constructor
        · intro hcontra
          exact absurd hcontra (foldl_stepKey_some_ne_none rest "..." _)
        · intro hall
          exfalso
          rcases hall (Stmt.whileS test body) (List.mem_cons_self _ _) with h | h
          · simp [isFunctionLike] at h
          · exact hl h
    | augAssign target value =>
      by_cases hl : stmtIdents (Stmt.augAssign target value) = []
      · have hstep : stepKey "..." none (Stmt.augAssign target value) = none := by
          simp [stepKey, hl]
        rw [hstep, ih hdots.2 hids.2]
        simp [isFunctionLike, hl]
      · have hstep : stepKey "..." none (Stmt.augAssign target value) =
            some (Option.getD none [] ++ stmtIdents (Stmt.augAssign target value)) := by
          simp [stepKey, hl]
        rw [hstep]
        constructor
        · intro hcontra
          exact absurd hcontra (foldl_stepKey_some_ne_none rest "..." _)
        · intro hall
          exfalso
          rcases hall (Stmt.augAssign target value) (List.mem_cons_self _ _) with h | h
          · simp [isFunctionLike] at h
          · exact hl h
    | other =>
      by_cases hl : stmtIdents (Stmt.other) = []
      · have hstep : stepKey "..." none (Stmt.other) = none := by
          simp [stepKey, hl]
        rw [hstep, ih hdots.2 hids.2]
        simp [isFunctionLike, hl]
      · have hstep : stepKey "..." none (Stmt.other) =
            some (Option.getD none [] ++ stmtIdents (Stmt.other)) := by
          simp [stepKey, hl]
        rw [hstep]
        constructor
        · intro hcontra
          exact absurd hcontra (foldl_stepKey_some_ne_none rest "..." _)
        · intro hall
          exfalso
          rcases hall (Stmt.other) (List.mem_cons_self _ _) with h | h
          · simp [isFunctionLike] at h
          · exact hl h

theorem foldl_stepKey_defmem_ne_none (m : List Stmt) (k : Ident) (hk : k ∈ defNames m) :
    ∀ v : Option (List Ident), m.foldl (stepKey k) v ≠ none := by
  induction m with
  | nil => simp [defNames] at hk
  | cons s rest ih =>
    intro v
    rw [List.foldl_cons]
    cases s with
    | functionDef name body =>
      by_cases hkn : k = name
      · subst hkn
        have hstep : stepKey k v (Stmt.functionDef k body) = some (stmtsIdents body) := by
          simp [stepKey]
        rw [hstep]
        exact foldl_stepKey_some_ne_none rest k _
      · simp only [defNames, List.mem_cons] at hk
        exact ih (hk.resolve_left hkn) _
    | asyncFunctionDef name body =>
      by_cases hkn : k = name
      · subst hkn
        have hstep : stepKey k v (Stmt.asyncFunctionDef k body) = some (stmtsIdents body) := by
          simp [stepKey]
        rw [hstep]
        exact foldl_stepKey_some_ne_none rest k _
      · simp only [defNames, List.mem_cons] at hk
        exact ih (hk.resolve_left hkn) _
    | expr value =>
      simp only [defNames] at hk
      exact ih hk _
    | ret value =>
      simp only [defNames] at hk
      exact ih hk _
    | assertS test msg =>
      simp only [defNames] at hk
      exact ih hk _
    | tryS body orelse finalbody =>
      simp only [defNames] at hk
      exact ih hk _
    | withS items body =>
      simp only [defNames] at hk
      exact ih hk _
    | forS target iter body =>
      simp only [defNames] at hk
      exact ih hk _
    | assign targets value =>
      simp only [defNames] at hk
      exact ih hk _
    | annAssign target value =>
      simp only [defNames] at hk
      exact ih hk _
    | delete targets =>
      simp only [defNames] at hk
      exact ih hk _
    | whileS test body =>
      simp only [defNames] at hk
      exact ih hk _
    | augAssign target value =>
      simp only [defNames] at hk
      exact ih hk _
    | other =>
      simp only [defNames] at hk
      exact ih hk _

theorem generate_step_nondef (g : Graph) (s : Stmt) (h : isFunctionLike s = false) :
    generate_step g s = build_graph_from_stmt s "..." g := by
  cases s <;> simp_all [generate_step, isFunctionLike]

/-! ## The closure invariant -/

theorem lookupG_some_mem (g : Graph) (k : Ident) (v : List Ident)
    (h : lookupG g k = some v) : (k, v) ∈ g := by
  induction g with
  | nil => simp [lookupG] at h
  | cons p rest ih =>
    obtain ⟨k', v'⟩ := p
    simp only [lookupG] at h
    by_cases h1 : k' = k
    · subst h1
      rw [if_pos rfl] at h
      have h2 : v' = v := Option.some_inj.mp h
      subst h2
      exact List.mem_cons_self _ _
    · rw [if_neg h1] at h
      exact List.mem_cons_of_mem _ (ih h)

theorem mem_insertG (g : Graph) (k : Ident) (v : List Ident) (p : Ident × List Ident)
    (h : p ∈ insertG g k v) : p = (k, v) ∨ p ∈ g := by
  induction g with
  | nil => simpa [insertG] using h
  | cons q rest ih =>
    obtain ⟨k', v'⟩ := q
    simp only [insertG] at h
    by_cases h1 : k' = k
    · subst h1
      rw [if_pos rfl] at h
      rcases List.mem_cons.mp h with h2 | h2
      · exact Or.inl (by simpa using h2)
      · exact Or.inr (List.mem_cons_of_mem _ h2)
    · rw [if_neg h1] at h
      rcases List.mem_cons.mp h with h2 | h2
      · exact Or.inr (by simp [h2])
      · rcases ih h2 with h3 | h3
        · exact Or.inl h3
        · exact Or.inr (List.mem_cons_of_mem _ h3)

theorem mem_entryPush (g : Graph) (k : Ident) (x : Ident) (p : Ident × List Ident)
    (h : p ∈ entryPush g k x) :
    p = (k, (lookupG g k).getD [] ++ [x]) ∨ p ∈ g := by
  induction g with
  | nil => simpa [entryPush, lookupG] using h
  | cons q rest ih =>
    obtain ⟨k', v'⟩ := q
    simp only [entryPush] at h
    by_cases h1 : k' = k
    · subst h1
      rw [if_pos rfl] at h
      rcases List.mem_cons.mp h with h2 | h2
      · exact Or.inl (by simp [h2, lookupG])
      · exact Or.inr (List.mem_cons_of_mem _ h2)
    · rw [if_neg h1] at h
      rcases List.mem_cons.mp h with h2 | h2
      · exact Or.inr (by simp [h2])
      · rcases ih h2 with h3 | h3
        · refine Or.inl ?_
          rw [h3]
          have : lookupG ((k', v') :: rest) k = lookupG rest k := by
            simp [lookupG, h1]
          rw [this]
        · exact Or.inr (List.mem_cons_of_mem _ h3)

theorem mem_entryOrDefault (g : Graph) (k : Ident) (p : Ident × List Ident)
    (h : p ∈ entryOrDefault g k) : p = (k, []) ∨ p ∈ g := by
  induction g with
  | nil => simpa [entryOrDefault] using h
  | cons q rest ih =>
    obtain ⟨k', v'⟩ := q
    simp only [entryOrDefault] at h
    by_cases h1 : k' = k
    · subst h1
      rw [if_pos rfl] at h
      exact Or.inr h
    · rw [if_neg h1] at h
      rcases List.mem_cons.mp h with h2 | h2
      · exact Or.inr (by simp [h2])
      · rcases ih h2 with h3 | h3
        · exact Or.inl h3
        · exact Or.inr (List.mem_cons_of_mem _ h3)

theorem containsKey_insertG_iff (g : Graph) (k : Ident) (v : List Ident) (q : Ident) :
    containsKey (insertG g k v) q = true ↔ k = q ∨ containsKey g q = true := by
  simp only [containsKey, lookupG_insertG]
  split_ifs with h <;> simp [h]

theorem containsKey_entryPush_iff (g : Graph) (k : Ident) (x : Ident) (q : Ident) :
    containsKey (entryPush g k x) q = true ↔ k = q ∨ containsKey g q = true := by
  simp only [containsKey, lookupG_entryPush]
  split_ifs with h <;> simp [h]

theorem containsKey_entryOrDefault_iff (g : Graph) (k : Ident) (q : Ident) :
    containsKey (entryOrDefault g k) q = true ↔ k = q ∨ containsKey g q = true := by
  simp only [containsKey, lookupG_entryOrDefault]
  split_ifs with h <;> simp [h]

/-- The closure property: every name in any outgoing sequence is a key. -/
def Closed (g : Graph) : Prop :=
  ∀ p ∈ g, ∀ i ∈ (p : Ident × List Ident).2, containsKey g i = true

/-- Only names satisfying `S` (the scope names) carry nonempty sequences. -/
def ScopeOnly (S : Ident → Prop) (g : Graph) : Prop :=
  ∀ p ∈ g, (p : Ident × List Ident).2 ≠ [] → S p.1

theorem Closed_applyIdent (g : Graph) (fn i : Ident) (h : Closed g) :
    Closed (applyIdent g fn i) := by
  intro p hp j hj
  have hkey : containsKey (applyIdent g fn i) j = true ↔
      i = j ∨ fn = j ∨ containsKey g j = true := by
    rw [applyIdent, containsKey_entryOrDefault_iff, containsKey_entryPush_iff]
  rcases mem_entryOrDefault _ _ _ hp with hcase | hp2
  · rw [hcase] at hj
    simp at hj
  · rcases mem_entryPush _ _ _ _ hp2 with hcase | hpg
    · rw [hcase] at hj
      simp only [List.mem_append, List.mem_singleton] at hj
      rcases hj with hj | hj
      · cases hlk : lookupG g fn with
        | none => rw [hlk] at hj; simp at hj
        | some v0 =>
          rw [hlk] at hj
          simp only [Option.getD_some] at hj
          have hmem := lookupG_some_mem g fn v0 hlk
          exact hkey.mpr (Or.inr (Or.inr (h _ hmem j hj)))
      · exact hkey.mpr (Or.inl hj.symm)
    · exact hkey.mpr (Or.inr (Or.inr (h p hpg j hj)))

theorem ScopeOnly_applyIdent (S : Ident → Prop) (g : Graph) (fn i : Ident)
    (h : ScopeOnly S g) (hS : S fn) : ScopeOnly S (applyIdent g fn i) := by
  intro p hp hne
  rcases mem_entryOrDefault _ _ _ hp with hcase | hp2
  · rw [hcase] at hne
    simp at hne
  · rcases mem_entryPush _ _ _ _ hp2 with hcase | hpg
    · rw [hcase]
      exact hS
    · exact h p hpg hne

theorem Closed_applyIdents (l : List Ident) (g : Graph) (fn : Ident) (h : Closed g) :
    Closed (applyIdents g fn l) := by
  induction l generalizing g with
  | nil => exact h
  | cons i rest ih => exact ih _ (Closed_applyIdent g fn i h)

theorem ScopeOnly_applyIdents (S : Ident → Prop) (l : List Ident) (g : Graph) (fn : Ident)
    (h : ScopeOnly S g) (hS : S fn) : ScopeOnly S (applyIdents g fn l) := by
  induction l generalizing g with
  | nil => exact h
  | cons i rest ih => exact ih _ (ScopeOnly_applyIdent S g fn i h hS)

theorem Closed_insertG_nil (g : Graph) (k : Ident) (h : Closed g) :
    Closed (insertG g k []) := by
  intro p hp j hj
  rcases mem_insertG _ _ _ _ hp with hcase | hpg
  · rw [hcase] at hj
    simp at hj
  · exact (containsKey_insertG_iff _ _ _ _).mpr (Or.inr (h p hpg j hj))

theorem ScopeOnly_insertG_nil (S : Ident → Prop) (g : Graph) (k : Ident)
    (h : ScopeOnly S g) : ScopeOnly S (insertG g k []) := by
  intro p hp hne
  rcases mem_insertG _ _ _ _ hp with hcase | hpg
  · rw [hcase] at hne
    simp at hne
  · exact h p hpg hne

theorem generate_step_preserves (S : Ident → Prop) (g : Graph) (s : Stmt)
    (hC : Closed g) (hS : ScopeOnly S g) (hdots : S "...")
    (hnames : ∀ n ∈ defNames [s], S n) :
    Closed (generate_step g s) ∧ ScopeOnly S (generate_step g s) := by
  cases s with
  | functionDef name body =>
    have hSn : S name := hnames name (by simp [defNames])
    have heq : generate_step g (Stmt.functionDef name body) =
        applyIdents (insertG g name []) name (stmtsIdents body) := by
      simp [generate_step, build_stmts_eq]
    rw [heq]
    exact ⟨Closed_applyIdents _ _ _ (Closed_insertG_nil g name hC),
      ScopeOnly_applyIdents S _ _ _ (ScopeOnly_insertG_nil S g name hS) hSn⟩
  | asyncFunctionDef name body =>
    have hSn : S name := hnames name (by simp [defNames])
    have heq : generate_step g (Stmt.asyncFunctionDef name body) =
        applyIdents (insertG g name []) name (stmtsIdents body) := by
      simp [generate_step, build_stmts_eq]
    rw [heq]
    exact ⟨Closed_applyIdents _ _ _ (Closed_insertG_nil g name hC),
      ScopeOnly_applyIdents S _ _ _ (ScopeOnly_insertG_nil S g name hS) hSn⟩
  | expr value =>
    rw [generate_step_nondef g (Stmt.expr value) rfl, build_graph_from_stmt_eq]
    exact ⟨Closed_applyIdents _ _ _ hC, ScopeOnly_applyIdents S _ _ _ hS hdots⟩
  | ret value =>
    rw [generate_step_nondef g (Stmt.ret value) rfl, build_graph_from_stmt_eq]
    exact ⟨Closed_applyIdents _ _ _ hC, ScopeOnly_applyIdents S _ _ _ hS hdots⟩
  | assertS test msg =>
    rw [generate_step_nondef g (Stmt.assertS test msg) rfl, build_graph_from_stmt_eq]
    exact ⟨Closed_applyIdents _ _ _ hC, ScopeOnly_applyIdents S _ _ _ hS hdots⟩
  | tryS body orelse finalbody =>
    rw [generate_step_nondef g (Stmt.tryS body orelse finalbody) rfl, build_graph_from_stmt_eq]
    exact ⟨Closed_applyIdents _ _ _ hC, ScopeOnly_applyIdents S _ _ _ hS hdots⟩
  | withS items body =>
    rw [generate_step_nondef g (Stmt.withS items body) rfl, build_graph_from_stmt_eq]
    exact ⟨Closed_applyIdents _ _ _ hC, ScopeOnly_applyIdents S _ _ _ hS hdots⟩
  | forS target iter body =>
    rw [generate_step_nondef g (Stmt.forS target iter body) rfl, build_graph_from_stmt_eq]
    exact ⟨Closed_applyIdents _ _ _ hC, ScopeOnly_applyIdents S _ _ _ hS hdots⟩
  | assign targets value =>
    rw [generate_step_nondef g (Stmt.assign targets value) rfl, build_graph_from_stmt_eq]
    exact ⟨Closed_applyIdents _ _ _ hC, ScopeOnly_applyIdents S _ _ _ hS hdots⟩
  | annAssign target value =>
    rw [generate_step_nondef g (Stmt.annAssign target value) rfl, build_graph_from_stmt_eq]
    exact ⟨Closed_applyIdents _ _ _ hC, ScopeOnly_applyIdents S _ _ _ hS hdots⟩
  | delete targets =>
    rw [generate_step_nondef g (Stmt.delete targets) rfl, build_graph_from_stmt_eq]
    exact ⟨Closed_applyIdents _ _ _ hC, ScopeOnly_applyIdents S _ _ _ hS hdots⟩
  | whileS test body =>
    rw [generate_step_nondef g (Stmt.whileS test body) rfl, build_graph_from_stmt_eq]
    exact ⟨Closed_applyIdents _ _ _ hC, ScopeOnly_applyIdents S _ _ _ hS hdots⟩
  | augAssign target value =>
    rw [generate_step_nondef g (Stmt.augAssign target value) rfl, build_graph_from_stmt_eq]
    exact ⟨Closed_applyIdents _ _ _ hC, ScopeOnly_applyIdents S _ _ _ hS hdots⟩
  | other =>
    rw [generate_step_nondef g (Stmt.other) rfl, build_graph_from_stmt_eq]
    exact ⟨Closed_applyIdents _ _ _ hC, ScopeOnly_applyIdents S _ _ _ hS hdots⟩

theorem foldl_generate_step_preserves (S : Ident → Prop) (l : List Stmt) :
    ∀ g : Graph, Closed g → ScopeOnly S g → S "..." → (∀ n ∈ defNames l, S n) →
      Closed (l.foldl generate_step g) ∧ ScopeOnly S (l.foldl generate_step g) := by
  induction l with
  | nil => exact fun g hC hS _ _ => ⟨hC, hS⟩
  | cons s rest ih =>
    intro g hC hS hdots hnames
    rw [List.foldl_cons]
    have hsplit : ∀ n ∈ defNames [s], S n := by
      intro n hn
      refine hnames n ?_
      rw [defNames_cons]
      exact List.mem_append.mpr (Or.inl hn)
    have hrest : ∀ n ∈ defNames rest, S n := by
      intro n hn
      refine hnames n ?_
      rw [defNames_cons]
      exact List.mem_append.mpr (Or.inr hn)
    obtain ⟨hC2, hS2⟩ := generate_step_preserves S g s hC hS hdots hsplit
    exact ih _ hC2 hS2 hdots hrest

/-! ## Claim theorems: graph construction -/

/-- **C1** (closure invariant): for every source module that parses
successfully, in the graph returned by `generate_graph` every name
appearing in any scope's outgoing sequence is also a key of the graph, and
every key that is neither a top-level definition name nor the synthetic
scope `"..."` is mapped to the empty sequence — so no edge references a
name absent from the node set. -/
theorem claim_C1_closure (m : List Stmt) (g : Graph)
    (hparse : generate_graph (Except.ok m) = Except.ok g) :
    (∀ k v, lookupG g k = some v → ∀ i ∈ v, containsKey g i = true) ∧
    (∀ k v, lookupG g k = some v → k ≠ "..." → k ∉ defNames m → v = []) := by
  have hg : g = generateGraphModule m := by
    have : Except.ok (generateGraphModule m) = (Except.ok g : Except ParseError Graph) := hparse
    exact (Except.ok.inj this).symm
  subst hg
  have hbase : Closed ([] : Graph) := by
    intro p hp
    exact absurd hp (List.not_mem_nil p)
  have hbase2 : ScopeOnly (fun k => k = "..." ∨ k ∈ defNames m) ([] : Graph) := by
    intro p hp
    exact absurd hp (List.not_mem_nil p)
  obtain ⟨hC, hS⟩ := foldl_generate_step_preserves (fun k => k = "..." ∨ k ∈ defNames m) m
    [] hbase hbase2 (Or.inl rfl) (fun n hn => Or.inr hn)
  constructor
  · intro k v hlk i hi
    exact hC (k, v) (lookupG_some_mem _ _ _ hlk) i hi
  · intro k v hlk hne hnd
    by_contra hv
    rcases hS (k, v) (lookupG_some_mem _ _ _ hlk) hv with h | h
    · exact hne h
    · exact hnd h

/-- Witness for C1 at `def a(): b()`: the referenced leaf `b` is a key. -/
theorem claim_C1_closure_witness :
    containsKey
      (generateGraphModule [Stmt.functionDef "a" [Stmt.expr (Expr.call (Expr.name "b") [] [])]])
      "b" = true :=
  (claim_C1_closure [Stmt.functionDef "a" [Stmt.expr (Expr.call (Expr.name "b") [] [])]]
      _ rfl).1 "a" ["b"] (by decide) "b" (by decide)

/-- The module of the spec example `def a(): b().c()`. -/
def exampleC5 : List Stmt :=
  [Stmt.functionDef "a"
    [Stmt.expr (Expr.call (Expr.attributeE (Expr.call (Expr.name "b") [] []) "c") [] [])]]

/-- **C5** counterexample: the claim's example asserts `def a(): b().c()`
yields the mapping `{"a": ["c"]}`, but the built graph additionally
contains the auto-created leaf key `"c"` (mapped to `[]`), which the
claimed mapping lacks; the `"a"` entry itself is `["c"]` as claimed. -/
theorem claim_C5_counterexample :
    containsKey (generateGraphModule exampleC5) "c" = true ∧
    containsKey [(("a" : Ident), (["c"] : List Ident))] "c" = false ∧
    lookupG (generateGraphModule exampleC5) "a" = some ["c"] := by
  decide

/-- **C5** (amended): for every call expression, an attribute-access
callee records the attribute name only (the receiver is not recursed
into), a bare-name callee records that name, any other callee form
records nothing; the walker then recurses into each positional argument
and never into keyword-argument values; and `def a(): b().c()` yields
`{"a": ["c"], "c": []}` (the leaf `c` auto-created, per the closure
invariant). -/
theorem claim_C5_amended :
    (∀ (func : Expr) (args keywords : List Expr) (cur : List Ident),
        get_call_idents (Expr.call func args keywords) cur =
          cur ++ (calleeNames func ++ exprIdentsList args)) ∧
    (∀ (receiver : Expr) (attr : Ident), calleeNames (Expr.attributeE receiver attr) = [attr]) ∧
    (∀ id : Ident, calleeNames (Expr.name id) = [id]) ∧
    (∀ func : Expr, (∀ receiver attr, func ≠ Expr.attributeE receiver attr) →
        (∀ id, func ≠ Expr.name id) → calleeNames func = []) ∧
    generateGraphModule exampleC5 = [("a", ["c"]), ("c", [])] := by
  refine ⟨?_, fun _ _ => rfl, fun _ => rfl, ?_, by decide⟩
  · intro func args keywords cur
    rw [get_call_idents_call, get_call_idents_list_state, List.append_assoc]
  · intro func h1 h2
    cases func with
    | attributeE receiver attr => exact absurd rfl (h1 receiver attr)
    | name id => exact absurd rfl (h2 id)
    | _ => rfl

/-- Witness for the amended C5: a call whose callee is an attribute access
on `b()` and whose only argument is a keyword argument records just the
attribute name — neither the receiver call `b` nor the keyword-value call
`kw` is recorded; and a literal callee (one of the "other" forms) records
nothing. -/
theorem claim_C5_amended_witness :
    get_call_idents
      (Expr.call (Expr.attributeE (Expr.call (Expr.name "b") [] []) "c") []
        [Expr.call (Expr.name "kw") [] []]) [] = ["c"] ∧
    calleeNames Expr.constant = [] := by
  constructor
  · have h := claim_C5_amended.1 (Expr.attributeE (Expr.call (Expr.name "b") [] []) "c") []
      [Expr.call (Expr.name "kw") [] []] []
    simpa [calleeNames, exprIdentsList] using h
  · exact claim_C5_amended.2.2.2.1 Expr.constant
      (fun receiver attr h => Expr.noConfusion h) (fun id h => Expr.noConfusion h)

/-- **C6** (scope synthesis): every top-level function-like definition
(either variant) creates a graph key named after it even when its body
records no calls; every other top-level statement is walked under the
synthetic scope `"..."`; and `def a(): b()` followed by `def b(): pass`
yields `{"a": ["b"], "b": []}`. -/
theorem claim_C6_scope_synthesis :
    (∀ (m : List Stmt) (name : Ident), name ∈ defNames m →
        containsKey (generateGraphModule m) name = true) ∧
    (∀ (g : Graph) (s : Stmt), isFunctionLike s = false →
        generate_step g s = build_graph_from_stmt s "..." g) ∧
    generateGraphModule
        [Stmt.functionDef "a" [Stmt.expr (Expr.call (Expr.name "b") [] [])],
          Stmt.functionDef "b" []] =
      [("a", ["b"]), ("b", [])] := by
  refine ⟨?_, generate_step_nondef, by decide⟩
  intro m name hname
  have h1 := lookupG_generateGraphModule m name
  have h2 := foldl_stepKey_defmem_ne_none m name hname none
  rw [containsKey, h1, Option.isSome_iff_ne_none]
  exact h2

/-- Witness for C6: `def b(): pass` after another definition still gets a
key. -/
theorem claim_C6_scope_synthesis_witness :
    containsKey (generateGraphModule [Stmt.functionDef "a" [], Stmt.functionDef "b" []])
      "b" = true :=
  claim_C6_scope_synthesis.1 [Stmt.functionDef "a" [], Stmt.functionDef "b" []] "b" (by decide)

/-- **C8** (edge ordering and duplicates): for a module whose top-level
definition names are distinct and none of which is the reserved `"..."`
(both guaranteed for parsed Python without redefinition), every key of the
built graph is mapped to exactly the calls extracted for that scope, one
entry per call site, in source traversal order, never deduplicated —
the per-key projection of the flat call-site list. -/
theorem claim_C8_edge_order (m : List Stmt) (hnd : (defNames m).Nodup)
    (hdots : "..." ∉ defNames m) (k : Ident) (v : List Ident)
    (h : lookupG (generateGraphModule m) k = some v) :
    v = ((moduleCallSites m).filter (fun p => p.1 = k)).map (fun p => p.2) := by
  rw [← scopeSeq_eq_filter]
  rw [lookupG_generateGraphModule] at h
  by_cases hk : k ∈ defNames m
  · rw [foldl_stepKey_defname m k hnd hdots hk none] at h
    exact (Option.some_inj.mp h).symm
  · by_cases hkd : k = "..."
    · subst hkd
      rcases foldl_stepKey_dots m hdots none with h2 | ⟨h2, _⟩
      · rw [h2] at h
        simpa using (Option.some_inj.mp h).symm
      · rw [h2] at h
        exact absurd h (by simp)
    · rcases foldl_stepKey_other m k hk hkd none with h2 | h2
      · rw [h2] at h
        exact absurd h (by simp)
      · rw [h2] at h
        rw [scopeSeq_eq_nil m k hk hkd]
        exact (Option.some_inj.mp h).symm

/-- The module used in the C8 witness: `def a(): b(); b()` then a
top-level `c()` — duplicate call sites are preserved in order. -/
def exampleC8 : List Stmt :=
  [Stmt.functionDef "a"
    [Stmt.expr (Expr.call (Expr.name "b") [] []),
      Stmt.expr (Expr.call (Expr.name "b") [] [])],
    Stmt.expr (Expr.call (Expr.name "c") [] [])]

/-- Witness for C8: scope `a`'s sequence is the duplicate-preserving
projection `["b", "b"]` of the call sites. -/
theorem claim_C8_edge_order_witness :
    (["b", "b"] : List Ident) =
      ((moduleCallSites exampleC8).filter (fun p => p.1 = "a")).map (fun p => p.2) :=
  claim_C8_edge_order exampleC8 (by decide) (by decide) "a" ["b", "b"] (by decide)

/-- **C9** (error propagation and totality): `generate_graph` returns an
error exactly when the external parse fails, the parse error is propagated
unchanged, and for every parsed module graph construction succeeds (the
builder is a total function — every statement and expression shape either
contributes edges or is a no-op). -/
theorem claim_C9_error_propagation :
    (∀ e : ParseError, generate_graph (Except.error e) = Except.error e) ∧
    (∀ m : List Stmt, generate_graph (Except.ok m) = Except.ok (generateGraphModule m)) ∧
    (∀ r : Except ParseError (List Stmt),
      (∃ g, generate_graph r = Except.ok g) ↔ (∃ m, r = Except.ok m)) := by
  refine ⟨fun _ => rfl, fun _ => rfl, fun r => ?_⟩
  cases r with
  | error e => simp [generate_graph]
  | ok m => simp [generate_graph]

/-- **C10**: the synthetic scope `"..."` is a key of the built graph iff
some top-level non-definition statement contributes at least one call
reference.  The hypotheses record what the Python parser guarantees: no
definition and no extracted ident can be literally named `"..."`. -/
theorem claim_C10_dots_key (m : List Stmt) (hdots : "..." ∉ defNames m)
    (hids : "..." ∉ allIdents m) :
    containsKey (generateGraphModule m) "..." = true ↔
      ∃ s ∈ m, isFunctionLike s = false ∧ stmtIdents s ≠ [] := by
  have hiff := foldl_stepKey_dots_none_iff m hdots hids
  rw [containsKey, lookupG_generateGraphModule, Option.isSome_iff_ne_none, ne_eq,
    not_congr hiff]
  constructor
  · intro h
    push_neg at h
    obtain ⟨s, hs, hvals⟩ := h
    exact ⟨s, hs, by simpa using hvals.1, hvals.2⟩
  · rintro ⟨s, hs, h1, hl⟩ hall
    rcases hall s hs with hc | hc
    · rw [h1] at hc
      exact Bool.false_ne_true hc
    · exact hl hc

/-- Witness for C10: one top-level call `c()` makes `"..."` a key; a
module of definitions only does not (both directions at concrete
modules). -/
theorem claim_C10_dots_key_witness :
    containsKey (generateGraphModule [Stmt.expr (Expr.call (Expr.name "c") [] [])]) "..." = true ∧
    ¬containsKey (generateGraphModule [Stmt.functionDef "a" []]) "..." = true := by
  constructor
  · exact (claim_C10_dots_key [Stmt.expr (Expr.call (Expr.name "c") [] [])] (by decide)
      (by decide)).mpr ⟨Stmt.expr (Expr.call (Expr.name "c") [] []), List.mem_cons_self _ _,
        rfl, by decide⟩
  · intro h
    obtain ⟨s, hs, _, _⟩ := (claim_C10_dots_key [Stmt.functionDef "a" []] (by decide)
      (by decide)).mp h
    simp only [List.mem_singleton] at hs
    subst hs
    simp_all [isFunctionLike]

/-! ## The directed graph built by the visualizer, and its analyzers

`load_graph` in `visualize.rs` adds one petgraph node per key of the
generated graph and one directed edge per entry of a key's outgoing
sequence (in sequence order).  We model the resulting
`petgraph::Graph<Entity, ()>` by its node count (indices `0..numNodes` in
insertion order) and its edge list in insertion order. -/

structure DiGraph where
  numNodes : Nat
  edges : List (Nat × Nat)

/-- Outgoing neighbors in petgraph iteration order: petgraph's adjacency
lists are singly linked with the most recently added edge at the head, so
`graph.neighbors(v)` yields edge targets in reverse insertion order. -/
def neighborsOut (g : DiGraph) (v : Nat) : List Nat :=
  ((g.edges.filter (fun e => e.1 = v)).map (fun e => e.2)).reverse

/-- `graph.neighbors_directed(node, Incoming).count()` from
`graph_highlights`: the number of incoming edges, counted with multi-edge
multiplicity (parallel edges each count; a self-loop counts once). -/
def incomingCount (g : DiGraph) (v : Nat) : Nat :=
  (g.edges.filter (fun e => e.2 = v)).length

/-- The inline-candidate test of `graph_highlights` (`Key1` arm of
`visualize.rs`): a node is highlighted unless its incoming count differs
from 1 or `graph.neighbors(node).next().is_some_and(|n| n == node)` — the
*first* outgoing neighbor (the most recently inserted outgoing edge's
target) equals the node itself. -/
def inline_candidate (g : DiGraph) (v : Nat) : Bool :=
  incomingCount g v == 1 &&
    !(match (neighborsOut g v).head? with
      | some n => n == v
      | none => false)

/-- One breadth step of reachability: add the targets of all edges whose
source is already in the set. -/
def reachStep (g : DiGraph) (s : List Nat) : List Nat :=
  (s ++ (g.edges.filter (fun e => e.1 ∈ s)).map (fun e => e.2)).dedup

/-- The set of nodes petgraph's `Bfs` visits from `v`.  `Bfs` follows
outgoing (directed) edges only and visits each reachable node exactly
once; we embed its visited set, computed by saturating `reachStep`
(fuel `edges.length + 1` suffices: see `mem_reachList_iff`). -/
def reachList (g : DiGraph) (v : Nat) : List Nat :=
  (reachStep g)^[g.edges.length + 1] [v]

/-- Directed reachability along the edge list. -/
def Reaches (g : DiGraph) (u w : Nat) : Prop :=
  Relation.ReflTransGen (fun a b => (a, b) ∈ g.edges) u w

/-- Undirected reachability (each edge usable in either direction) — the
spec's notion of weak connectivity. -/
def ReachesU (g : DiGraph) (u w : Nat) : Prop :=
  Relation.ReflTransGen (fun a b => (a, b) ∈ g.edges ∨ (b, a) ∈ g.edges) u w

/-- `graph_components` from `visualize.rs`: for each node index in order,
skip it if some collected component already contains it, otherwise
collect the visited set of a BFS started there as a new component. -/
def graph_components (g : DiGraph) : List (List Nat) :=
  (List.range g.numNodes).foldl
    (fun components node =>
      if components.any (fun c => c.contains node) then components
      else components ++ [reachList g node])
    []

/-- The strongly-connected class of `v`: all node indices mutually
reachable with `v`. -/
def sccClass (g : DiGraph) (v : Nat) : List Nat :=
  (List.range g.numNodes).filter
    (fun u => decide (u ∈ reachList g v) && decide (v ∈ reachList g u))

/-- Modelled from the spec: `petgraph::algo::kosaraju_scc` is an external
library call (`visualize.rs` only invokes it).  Per the spec it returns
the partition of the node set into strongly connected components —
maximal classes of mutual directed reachability; we model its result as
those classes, grouped in node-index order. -/
def kosaraju_scc (g : DiGraph) : List (List Nat) :=
  (List.range g.numNodes).foldl
    (fun comps v =>
      if comps.any (fun c => c.contains v) then comps
      else comps ++ [sccClass g v])
    []

theorem mem_reachStep_iff (g : DiGraph) (s : List Nat) (a : Nat) :
    a ∈ reachStep g s ↔ a ∈ s ∨ ∃ e ∈ g.edges, e.1 ∈ s ∧ e.2 = a := by
  simp [reachStep, List.mem_dedup, List.mem_append, List.mem_map, List.mem_filter]

theorem subset_reachStep (g : DiGraph) (s : List Nat) : ∀ a ∈ s, a ∈ reachStep g s :=
  fun a ha => (mem_reachStep_iff g s a).mpr (Or.inl ha)

theorem reachStep_congr (g : DiGraph) (s t : List Nat) (h : ∀ a, a ∈ s ↔ a ∈ t) :
    ∀ a, a ∈ reachStep g s ↔ a ∈ reachStep g t := by
  intro a
  rw [mem_reachStep_iff, mem_reachStep_iff]
  constructor
  · rintro (ha | ⟨e, he, h1, h2⟩)
    · exact Or.inl ((h a).mp ha)
    · exact Or.inr ⟨e, he, (h e.1).mp h1, h2⟩
  · rintro (ha | ⟨e, he, h1, h2⟩)
    · exact Or.inl ((h a).mpr ha)
    · exact Or.inr ⟨e, he, (h e.1).mpr h1, h2⟩

theorem iter_reachStep_subset_succ (g : DiGraph) (v : Nat) (k : Nat) :
    ∀ a ∈ (reachStep g)^[k] [v], a ∈ (reachStep g)^[k + 1] [v] := by
  rw [Function.iterate_succ_apply']
  exact subset_reachStep g _

theorem iter_reachStep_subset (g : DiGraph) (v : Nat) (k j : Nat) (h : k ≤ j) :
    ∀ a ∈ (reachStep g)^[k] [v], a ∈ (reachStep g)^[j] [v] := by
  induction j with
  | zero =>
    have : k = 0 := Nat.le_zero.mp h
    subst this
    exact fun a ha => ha
  | succ j ih =>
    rcases Nat.lt_or_ge k (j + 1) with h2 | h2
    · intro a ha
      exact iter_reachStep_subset_succ g v j a (ih (Nat.lt_succ_iff.mp h2) a ha)
    · have : k = j + 1 := Nat.le_antisymm h h2
      subst this
      exact fun a ha => ha

theorem iter_reachStep_sound (g : DiGraph) (v : Nat) :
    ∀ (k : Nat) (a : Nat), a ∈ (reachStep g)^[k] [v] → Reaches g v a := by
  intro k
  induction k with
  | zero =>
    intro a ha
    simp only [Function.iterate_zero_apply, List.mem_singleton] at ha
    subst ha
    exact Relation.ReflTransGen.refl
  | succ k ih =>
    intro a ha
    rw [Function.iterate_succ_apply'] at ha
    rcases (mem_reachStep_iff g _ a).mp ha with h1 | ⟨e, he, h1, h2⟩
    · exact ih a h1
    · obtain ⟨x, y⟩ := e
      subst h2
      exact Relation.ReflTransGen.tail (ih x h1) he

theorem iter_reachStep_nodup (g : DiGraph) (v : Nat) (k : Nat) :
    ((reachStep g)^[k] [v]).Nodup := by
  cases k with
  | zero => simp
  | succ k =>
    rw [Function.iterate_succ_apply']
    exact List.nodup_dedup _

theorem iter_reachStep_subset_universe (g : DiGraph) (v : Nat) (k : Nat) :
    ∀ a ∈ (reachStep g)^[k] [v], a ∈ v :: g.edges.map (fun e => e.2) := by
  induction k with
  | zero =>
    intro a ha
    simp only [Function.iterate_zero_apply, List.mem_singleton] at ha
    exact List.mem_cons.mpr (Or.inl ha)
  | succ k ih =>
    intro a ha
    rw [Function.iterate_succ_apply'] at ha
    rcases (mem_reachStep_iff g _ a).mp ha with h1 | ⟨e, he, _, h2⟩
    · exact ih a h1
    · exact List.mem_cons.mpr (Or.inr (List.mem_map.mpr ⟨e, he, h2⟩))

theorem iter_reachStep_length_le (g : DiGraph) (v : Nat) (k : Nat) :
    ((reachStep g)^[k] [v]).length ≤ g.edges.length + 1 := by
  have hnd := iter_reachStep_nodup g v k
  have hsub := iter_reachStep_subset_universe g v k
  calc ((reachStep g)^[k] [v]).length
      = ((reachStep g)^[k] [v]).toFinset.card := (List.toFinset_card_of_nodup hnd).symm
    _ ≤ (v :: g.edges.map (fun e => e.2)).toFinset.card := by
        apply Finset.card_le_card
        intro a ha
        rw [List.mem_toFinset] at ha
        rw [List.mem_toFinset]
        exact hsub a ha
    _ ≤ (v :: g.edges.map (fun e => e.2)).length := List.toFinset_card_le _
    _ = g.edges.length + 1 := by simp

theorem iter_reachStep_stab (g : DiGraph) (v : Nat) (k : Nat)
    (h : ∀ a, a ∈ (reachStep g)^[k] [v] ↔ a ∈ (reachStep g)^[k + 1] [v]) :
    ∀ j, k ≤ j → ∀ a, (a ∈ (reachStep g)^[j] [v] ↔ a ∈ (reachStep g)^[k] [v]) := by
  intro j
  induction j with
  | zero =>
    intro hj a
    have h0 : k = 0 := Nat.le_zero.mp hj
    subst h0
    exact Iff.rfl
  | succ j ih =>
    intro hj a
    rcases Nat.lt_or_ge k (j + 1) with h2 | h2
    · have hkj : k ≤ j := Nat.lt_succ_iff.mp h2
      rw [Function.iterate_succ_apply']
      rw [reachStep_congr g _ _ (fun b => ih hkj b) a]
      rw [← Function.iterate_succ_apply' (reachStep g) k [v]]
      exact (h a).symm
    · have h0 : k = j + 1 := Nat.le_antisymm hj h2
      subst h0
      exact Iff.rfl

theorem iter_reachStep_grow (g : DiGraph) (v : Nat) :
    ∀ k : Nat,
      (∀ j, j < k → ¬(∀ a, a ∈ (reachStep g)^[j] [v] ↔ a ∈ (reachStep g)^[j + 1] [v])) →
      k + 1 ≤ ((reachStep g)^[k] [v]).length := by
  intro k
  induction k with
  | zero => intro _; simp
  | succ k ih =>
    intro h
    have hk := ih (fun j hj => h j (Nat.lt_succ_of_lt hj))
    have hne := h k (Nat.lt_succ_self k)
    push_neg at hne
    obtain ⟨a, ha⟩ := hne
    have hsub := iter_reachStep_subset_succ g v k
    have hmem : a ∈ (reachStep g)^[k + 1] [v] ∧ a ∉ (reachStep g)^[k] [v] := by
      rcases ha with ⟨h1, h2⟩ | ⟨h1, h2⟩
      · exact absurd (hsub a h1) h2
      · exact ⟨h2, h1⟩
    have hsubF : ((reachStep g)^[k] [v]).toFinset ⊆ ((reachStep g)^[k + 1] [v]).toFinset := by
      intro b hb
      rw [List.mem_toFinset] at hb ⊢
      exact hsub b hb
    have hssub := (Finset.ssubset_iff_of_subset hsubF).mpr
      ⟨a, List.mem_toFinset.mpr hmem.1, fun hc => hmem.2 (List.mem_toFinset.mp hc)⟩
    have hcard := Finset.card_lt_card hssub
    rw [List.toFinset_card_of_nodup (iter_reachStep_nodup g v k),
      List.toFinset_card_of_nodup (iter_reachStep_nodup g v (k + 1))] at hcard
    omega

theorem iter_reachStep_exists_stab (g : DiGraph) (v : Nat) :
    ∃ k, k ≤ g.edges.length ∧
      ∀ a, a ∈ (reachStep g)^[k] [v] ↔ a ∈ (reachStep g)^[k + 1] [v] := by
  by_contra hcon
  push_neg at hcon
  have hstep : ∀ j, j < g.edges.length + 1 →
      ¬(∀ a, a ∈ (reachStep g)^[j] [v] ↔ a ∈ (reachStep g)^[j + 1] [v]) := by
    intro j hj hall
    obtain ⟨a, hor⟩ := hcon j (Nat.lt_succ_iff.mp hj)
    rcases hor with ⟨h1, h2⟩ | ⟨h1, h2⟩
    · exact h2 ((hall a).mp h1)
    · exact h1 ((hall a).mpr h2)
  have h := iter_reachStep_grow g v (g.edges.length + 1) hstep
  have h2 := iter_reachStep_length_le g v (g.edges.length + 1)
  omega

theorem reachList_closed (g : DiGraph) (v a b : Nat) (ha : a ∈ reachList g v)
    (hab : (a, b) ∈ g.edges) : b ∈ reachList g v := by
  obtain ⟨k, hk, hstab⟩ := iter_reachStep_exists_stab g v
  have hF := iter_reachStep_stab g v k hstab
  have hak : a ∈ (reachStep g)^[k] [v] :=
    (hF (g.edges.length + 1) (by omega) a).mp ha
  have hb : b ∈ (reachStep g)^[k + 1] [v] := by
    rw [Function.iterate_succ_apply']
    exact (mem_reachStep_iff g _ b).mpr (Or.inr ⟨(a, b), hab, hak, rfl⟩)
  have hbk : b ∈ (reachStep g)^[k] [v] := (hF (k + 1) (Nat.le_succ k) b).mp hb
  exact (hF (g.edges.length + 1) (by omega) b).mpr hbk

/-- The saturated `reachStep` iteration computes exactly directed
reachability. -/
theorem mem_reachList_iff (g : DiGraph) (v a : Nat) :
    a ∈ reachList g v ↔ Reaches g v a := by
  constructor
  · exact iter_reachStep_sound g v _ a
  · intro h
    induction h with
    | refl => exact iter_reachStep_subset g v 0 _ (Nat.zero_le _) v (by simp)
    | tail hr hedge ih => exact reachList_closed g v _ _ ih hedge

theorem reachList_self (g : DiGraph) (v : Nat) : v ∈ reachList g v :=
  (mem_reachList_iff g v v).mpr Relation.ReflTransGen.refl

/-! ## Component collection -/

theorem components_fold_mem (f : Nat → List Nat) (Q : List Nat → Prop) :
    ∀ (l : List Nat) (comps : List (List Nat)), (∀ c ∈ comps, Q c) →
      (∀ v ∈ l, Q (f v)) →
      ∀ c ∈ l.foldl (fun comps node =>
          if comps.any (fun c => c.contains node) then comps else comps ++ [f node]) comps,
        Q c := by
  intro l
  induction l with
  | nil => intro comps h0 _ c hc; exact h0 c hc
  | cons node rest ih =>
    intro comps h0 hl c hc
    rw [List.foldl_cons] at hc
    by_cases hb : comps.any (fun c => c.contains node) = true
    · rw [if_pos hb] at hc
      exact ih comps h0 (fun v hv => hl v (List.mem_cons_of_mem _ hv)) c hc
    · rw [if_neg hb] at hc
      refine ih _ ?_ (fun v hv => hl v (List.mem_cons_of_mem _ hv)) c hc
      intro c' hc'
      rcases List.mem_append.mp hc' with h | h
      · exact h0 c' h
      · rw [List.mem_singleton.mp h]
        exact hl node (List.mem_cons_self _ _)

theorem components_fold_mono (f : Nat → List Nat) :
    ∀ (l : List Nat) (comps : List (List Nat)) (c : List Nat), c ∈ comps →
      c ∈ l.foldl (fun comps node =>
        if comps.any (fun c => c.contains node) then comps else comps ++ [f node]) comps := by
  intro l
  induction l with
  | nil => intro comps c hc; exact hc
  | cons node rest ih =>
    intro comps c hc
    rw [List.foldl_cons]
    by_cases hb : comps.any (fun c => c.contains node) = true
    · rw [if_pos hb]
      exact ih comps c hc
    · rw [if_neg hb]
      exact ih _ c (List.mem_append.mpr (Or.inl hc))

theorem components_fold_cover (f : Nat → List Nat) :
    ∀ (l : List Nat) (comps : List (List Nat)), (∀ v ∈ l, v ∈ f v) → ∀ v ∈ l,
      ∃ c ∈ l.foldl (fun comps node =>
        if comps.any (fun c => c.contains node) then comps else comps ++ [f node]) comps,
        v ∈ c := by
  intro l
  induction l with
  | nil => intro comps _ v hv; simp at hv
  | cons node rest ih =>
    intro comps hself v hv
    rw [List.foldl_cons]
    rcases List.mem_cons.mp hv with h | h
    · subst h
      by_cases hb : comps.any (fun c => c.contains v) = true
      · rw [if_pos hb]
        obtain ⟨c, hc, hvc⟩ := List.any_eq_true.mp hb
        exact ⟨c, components_fold_mono f rest comps c hc, by simpa using hvc⟩
      · rw [if_neg hb]
        exact ⟨f v,
          components_fold_mono f rest _ _ (List.mem_append.mpr (Or.inr (List.mem_singleton.mpr rfl))),
          hself v (List.mem_cons_self _ _)⟩
    · by_cases hb : comps.any (fun c => c.contains node) = true
      · rw [if_pos hb]
        exact ih comps (fun u hu => hself u (List.mem_cons_of_mem _ hu)) v h
      · rw [if_neg hb]
        exact ih _ (fun u hu => hself u (List.mem_cons_of_mem _ hu)) v h

theorem reaches_lt (g : DiGraph)
    (hvalid : ∀ e ∈ g.edges, e.1 < g.numNodes ∧ e.2 < g.numNodes)
    (v u : Nat) (hv : v < g.numNodes) (h : Reaches g v u) : u < g.numNodes := by
  induction h with
  | refl => exact hv
  | tail hr hedge ih => exact (hvalid _ hedge).2

/-! ## Claim theorems: structural analyzers -/

/-- **C2** counterexample: on the graph of `def a(): c()` and
`def b(): c()` (nodes `a` = 0, `b` = 1, `c` = 2; edges `a→c`, `b→c`),
`graph_components` returns two distinct components that both contain node
2 — the output is not a partition of the node set (petgraph's `Bfs`
follows outgoing edges only, so a shared callee is collected twice). -/
theorem claim_C2_counterexample :
    graph_components ⟨3, [(0, 2), (1, 2)]⟩ = [[0, 2], [1, 2]] ∧
    (2 : Nat) ∈ ([0, 2] : List Nat) ∧ (2 : Nat) ∈ ([1, 2] : List Nat) ∧
    ([0, 2] : List Nat) ≠ [1, 2] := by
  decide

/-- **C2** (amended): for every built graph (all edges between existing
nodes), the components returned by `graph_components` cover the node set
— every node lies in at least one returned component and every returned
component only contains nodes of the graph — but they need not be
pairwise disjoint (see the counterexample). -/
theorem claim_C2_amended (g : DiGraph)
    (hvalid : ∀ e ∈ g.edges, e.1 < g.numNodes ∧ e.2 < g.numNodes) :
    (∀ v, v < g.numNodes → ∃ c ∈ graph_components g, v ∈ c) ∧
    (∀ c ∈ graph_components g, ∀ u ∈ c, u < g.numNodes) := by
  constructor
  · intro v hv
    exact components_fold_cover (reachList g) (List.range g.numNodes) []
      (fun u _ => reachList_self g u) v (List.mem_range.mpr hv)
  · intro c hc u hu
    have hchar := components_fold_mem (reachList g)
      (fun c => ∃ v, v < g.numNodes ∧ c = reachList g v) (List.range g.numNodes) []
      (by intro c' hc'; simp at hc') (fun v hv => ⟨v, List.mem_range.mp hv, rfl⟩) c hc
    obtain ⟨v, hvn, hceq⟩ := hchar
    rw [hceq] at hu
    exact reaches_lt g hvalid v u hvn ((mem_reachList_iff g v u).mp hu)

/-- Witness for the amended C2 at the counterexample graph: node 1 is
covered by some component. -/
theorem claim_C2_amended_witness :
    ∃ c ∈ graph_components ⟨3, [(0, 2), (1, 2)]⟩, 1 ∈ c :=
  (claim_C2_amended ⟨3, [(0, 2), (1, 2)]⟩ (by decide)).1 1 (by decide)

/-- **C3** counterexample: on the graph with nodes 0, 1 and the single
edge `1 → 0` (e.g. `def b(): a()` with `a` enumerated first), the first
returned component is `[0]`, although node 1 is reachable from node 0
ignoring edge direction — a returned component need not be a maximal set
of nodes mutually reachable ignoring direction, because the BFS follows
outgoing edges only. -/
theorem claim_C3_counterexample :
    [0] ∈ graph_components ⟨2, [(1, 0)]⟩ ∧
    ReachesU ⟨2, [(1, 0)]⟩ 0 1 ∧ (1 : Nat) ∉ ([0] : List Nat) := by
  refine ⟨by decide, ?_, by decide⟩
  exact Relation.ReflTransGen.single (Or.inr (by decide))

/-- **C3** (amended): each component returned by `graph_components` is
collected by a breadth-first traversal that follows edge direction
(outgoing edges only) from a start node not contained in any earlier
component: each returned component is exactly the set of nodes reachable
from its start node along directed edges. -/
theorem claim_C3_amended (g : DiGraph) (c : List Nat) (hc : c ∈ graph_components g) :
    ∃ v, v < g.numNodes ∧ c = reachList g v ∧ ∀ u, (u ∈ c ↔ Reaches g v u) := by
  have hchar := components_fold_mem (reachList g)
    (fun c => ∃ v, v < g.numNodes ∧ c = reachList g v) (List.range g.numNodes) []
    (by intro c' hc'; simp at hc') (fun v hv => ⟨v, List.mem_range.mp hv, rfl⟩) c hc
  obtain ⟨v, hvn, hceq⟩ := hchar
  refine ⟨v, hvn, hceq, fun u => ?_⟩
  rw [hceq]
  exact mem_reachList_iff g v u

/-- Witness for the amended C3: the second component of the
counterexample graph is the directed-reachability set of node 1. -/
theorem claim_C3_amended_witness :
    ∃ v, v < DiGraph.numNodes ⟨2, [(1, 0)]⟩ ∧
      ([1, 0] : List Nat) = reachList ⟨2, [(1, 0)]⟩ v ∧
      ∀ u, (u ∈ ([1, 0] : List Nat) ↔ Reaches ⟨2, [(1, 0)]⟩ v u) :=
  claim_C3_amended ⟨2, [(1, 0)]⟩ [1, 0] (by decide)

/-- **C4** (failing input): in the graph of `def a(): a(); b()` (node 0 =
`a`, node 1 = `b`; edges inserted in source order `a→a`, then `a→b`),
node 0's single incoming edge is the self-loop `(0, 0)`, yet the code
reports it as an inline candidate: the self-loop guard inspects only the
first outgoing neighbor petgraph yields — the most recently inserted
edge's target, node 1.  For `def a(): a()` alone (last conjunct) the
guard does exclude the node, as the spec's example states. -/
theorem claim_C4_selfloop_bug :
    inline_candidate ⟨2, [(0, 0), (0, 1)]⟩ 0 = true ∧
    incomingCount ⟨2, [(0, 0), (0, 1)]⟩ 0 = 1 ∧
    (DiGraph.edges ⟨2, [(0, 0), (0, 1)]⟩).filter (fun e => e.2 = 0) = [(0, 0)] ∧
    inline_candidate ⟨1, [(0, 0)]⟩ 0 = false := by
  decide

theorem mem_sccClass_iff (g : DiGraph) (v u : Nat) :
    u ∈ sccClass g v ↔ u < g.numNodes ∧ Reaches g v u ∧ Reaches g u v := by
  simp [sccClass, List.mem_filter, List.mem_range, mem_reachList_iff]

theorem sccClass_congr (g : DiGraph) (a b : Nat) (h1 : Reaches g a b) (h2 : Reaches g b a) :
    sccClass g a = sccClass g b := by
  apply List.filter_congr
  intro u _
  have e1 : (u ∈ reachList g a) ↔ (u ∈ reachList g b) := by
    rw [mem_reachList_iff, mem_reachList_iff]
    exact ⟨fun h => h2.trans h, fun h => h1.trans h⟩
  have e2 : (a ∈ reachList g u) ↔ (b ∈ reachList g u) := by
    rw [mem_reachList_iff, mem_reachList_iff]
    exact ⟨fun h => h.trans h1, fun h => h.trans h2⟩
  rw [decide_eq_decide.mpr e1, decide_eq_decide.mpr e2]

/-- **C7** (SCC correctness): the strongly-connected-component analysis
returns a partition of the node set — every node is covered, distinct
returned components are disjoint — and two nodes share a component iff
each is reachable from the other along directed edges.  A single node
with no self-loop is its own component and a single node with a self-loop
is also its own component (last two conjuncts) — self-loops are not
special-cased. -/
theorem claim_C7_scc (g : DiGraph) :
    (∀ v, v < g.numNodes → ∃ c ∈ kosaraju_scc g, v ∈ c) ∧
    (∀ c1 ∈ kosaraju_scc g, ∀ c2 ∈ kosaraju_scc g, c1 ≠ c2 → ∀ v, v ∈ c1 → v ∉ c2) ∧
    (∀ u v, u < g.numNodes → v < g.numNodes →
      ((∃ c ∈ kosaraju_scc g, u ∈ c ∧ v ∈ c) ↔ (Reaches g u v ∧ Reaches g v u))) ∧
    kosaraju_scc ⟨1, [(0, 0)]⟩ = [[0]] ∧ kosaraju_scc ⟨1, []⟩ = [[0]] := by
  have hchar := components_fold_mem (sccClass g)
    (fun c => ∃ v, v < g.numNodes ∧ c = sccClass g v) (List.range g.numNodes) []
    (by intro c' hc'; simp at hc') (fun v hv => ⟨v, List.mem_range.mp hv, rfl⟩)
  have hself : ∀ v ∈ List.range g.numNodes, v ∈ sccClass g v := by
    intro v hv
    exact (mem_sccClass_iff g v v).mpr
      ⟨List.mem_range.mp hv, Relation.ReflTransGen.refl, Relation.ReflTransGen.refl⟩
  refine ⟨?_, ?_, ?_, by decide, by decide⟩
  · intro v hv
    exact components_fold_cover (sccClass g) (List.range g.numNodes) [] hself v
      (List.mem_range.mpr hv)
  · intro c1 hc1 c2 hc2 hne v hv1 hv2
    obtain ⟨a, han, ha⟩ := hchar c1 hc1
    obtain ⟨b, hbn, hb⟩ := hchar c2 hc2
    rw [ha] at hv1
    rw [hb] at hv2
    obtain ⟨_, hav, hva⟩ := (mem_sccClass_iff g a v).mp hv1
    obtain ⟨_, hbv, hvb⟩ := (mem_sccClass_iff g b v).mp hv2
    have hab : Reaches g a b := hav.trans hvb
    have hba : Reaches g b a := hbv.trans hva
    exact hne (ha.trans ((sccClass_congr g a b hab hba).trans hb.symm))
  · intro u v hu hv
    constructor
    · rintro ⟨c, hc, huc, hvc⟩
      obtain ⟨a, han, ha⟩ := hchar c hc
      rw [ha] at huc hvc
      obtain ⟨_, hau, hua⟩ := (mem_sccClass_iff g a u).mp huc
      obtain ⟨_, hav, hva⟩ := (mem_sccClass_iff g a v).mp hvc
      exact ⟨hua.trans hav, hva.trans hau⟩
    · rintro ⟨huv, hvu⟩
      obtain ⟨c, hc, huc⟩ := components_fold_cover (sccClass g) (List.range g.numNodes) []
        hself u (List.mem_range.mpr hu)
      obtain ⟨a, han, ha⟩ := hchar c hc
      rw [ha] at huc
      obtain ⟨_, hau, hua⟩ := (mem_sccClass_iff g a u).mp huc
      refine ⟨c, hc, by rw [ha]; exact huc, ?_⟩
      rw [ha]
      exact (mem_sccClass_iff g a v).mpr ⟨hv, hau.trans huv, hvu.trans hua⟩

/-- Witness for C7: on the one-node self-loop graph, node 0 is covered by
a component. -/
theorem claim_C7_scc_witness :
    ∃ c ∈ kosaraju_scc ⟨1, [(0, 0)]⟩, 0 ∈ c :=
  (claim_C7_scc ⟨1, [(0, 0)]⟩).1 0 (by decide)
